import Mathlib

/-!
Verification of the miniMDS data-model module (data_tools.py).

The Python source is Python 2: the operator / on two ints is floor division,
which we embed as Int.fdiv.  Floating-point values (3-D coordinates and
contact weights) are embedded as rationals, and numpy object arrays of
points are embedded as lists of slots (a slot is either empty, the numeric
sentinel 0 in the source, or holds a point).  Functions that can raise at
runtime (IndexError, AttributeError, ValueError, NameError, sys.exit) are
embedded as Option-valued functions returning none on those paths.
Python indexing semantics are kept: a negative index i with -len <= i < 0
addresses element len + i, and an index out of that range raises.
-/

/-- Chromosome parameters, from class ChromParameters of data_tools.py.
The size field is Option-valued because structure_from_file constructs a
ChromParameters with size None. -/
structure ChromParameters where
  minPos : Int
  maxPos : Int
  res : Int
  name : String
  size : Option Int
deriving DecidableEq, Repr

/-- Number of possible loci, from ChromParameters.getLength (Python 2 floor
division). -/
def ChromParameters.getLength (c : ChromParameters) : Int :=
  (c.maxPos - c.minPos).fdiv c.res + 1

/-- Conversion of a genomic coordinate into a point number, from
ChromParameters.getPointNum. -/
def ChromParameters.getPointNum (c : ChromParameters) (genCoord : Int) : Option Int :=
  if genCoord < c.minPos ∨ genCoord > c.maxPos then
    none
  else
    some ((genCoord - c.minPos).fdiv c.res)

/-- Low-resolution version of a chromosome, from ChromParameters.reduceRes.
Both bounds are computed with Python 2 floor division by the new
resolution. -/
def ChromParameters.reduceRes (c : ChromParameters) (rr : Int) : ChromParameters :=
  let lowRes := c.res * rr
  { minPos := (c.minPos.fdiv lowRes) * lowRes
    maxPos := (c.maxPos.fdiv lowRes) * lowRes
    res := lowRes
    name := c.name
    size := c.size }

/-- Point in 3-D space, from class Point of data_tools.py. -/
structure Point where
  pos : ℚ × ℚ × ℚ
  num : Int
  chrom : ChromParameters
  index : Int
deriving DecidableEq, Repr

/-- One cell of the points array of a structure: the source stores either
the int 0 (empty) or a Point object. -/
inductive Slot where
  | empty : Slot
  | point : Point → Slot
deriving DecidableEq, Repr

/-- Intrachromosomal structure, from class Structure of data_tools.py.
The child-structure list is not carried: setstructures is embedded below as
a function producing the rederived parent slot array. -/
structure Structure where
  points : List Slot
  chrom : ChromParameters
  offset : Int
deriving DecidableEq, Repr

/-- Non-empty points of a structure in slot order, from Structure.getPoints. -/
def Structure.getPoints (s : Structure) : List Point :=
  s.points.filterMap (fun sl => match sl with
    | Slot.empty => none
    | Slot.point p => some p)

/-- Point numbers of the non-empty points in slot order, from
Structure.getPointNums. -/
def Structure.getPointNums (s : Structure) : List Int :=
  s.getPoints.map (fun p => p.num)

/-- Genomic coordinates of the non-empty points, from
Structure.getGenCoords. -/
def Structure.getGenCoords (s : Structure) : List Int :=
  s.getPointNums.map (fun n => s.chrom.minPos + s.chrom.res * n)

/-- Positions of the non-empty points in slot order (for stating theorems
about preserved coordinates). -/
def nonEmptyPositions (s : Structure) : List (ℚ × ℚ × ℚ) :=
  s.getPoints.map (fun p => p.pos)

/-- Index fields of the non-empty points in slot order (for stating
theorems about dense re-indexing). -/
def nonEmptyIndices (s : Structure) : List Int :=
  s.getPoints.map (fun p => p.index)

/-- Property of one slot: it is empty or holds a point with the given num. -/
def Slot.okNum : Slot → Int → Prop
  | Slot.empty, _ => True
  | Slot.point p, n => p.num = n

instance (sl : Slot) (n : Int) : Decidable (sl.okNum n) := by
  cases sl with
  | empty => exact isTrue trivial
  | point p => exact (inferInstance : Decidable (p.num = n))

/-- Slot invariant of the spec data model: slot i is empty or holds a point
whose num equals i plus the structure offset. -/
def slotInvariant (s : Structure) : Prop :=
  ∀ i : Nat, ∀ h : i < s.points.length,
    (s.points.get ⟨i, h⟩).okNum ((i : Int) + s.offset)

instance (s : Structure) : Decidable (slotInvariant s) := by
  unfold slotInvariant
  exact Nat.decidableBallLT _ _

/-- Resolution of a Python index expression a[i] for a list of length n:
negative indices address from the end, anything outside [-n, n) raises. -/
def pyResolve (n : Nat) (i : Int) : Option Nat :=
  if 0 ≤ i ∧ i < (n : Int) then
    some i.toNat
  else if -(n : Int) ≤ i ∧ i < 0 then
    some (i + n).toNat
  else
    none

/-- Python read a[i] on a slot list. -/
def pyGet (l : List Slot) (i : Int) : Option Slot :=
  (pyResolve l.length i).bind (fun j => l.get? j)

/-- Python write a[i] = v on a slot list (none models IndexError). -/
def pySet (l : List Slot) (i : Int) (v : Slot) : Option (List Slot) :=
  (pyResolve l.length i).map (fun j => l.set j v)

/-- Conversion of a genomic coordinate into a compact index, from
Structure.getIndex. -/
def Structure.getIndex (s : Structure) (genCoord : Int) : Option Int :=
  match s.chrom.getPointNum genCoord with
  | none => none
  | some pointNum =>
    let pn := pointNum - s.offset
    if 0 ≤ pn ∧ pn < (s.points.length : Int) then
      match s.points.get? pn.toNat with
      | some (Slot.point p) => some p.index
      | _ => none
    else
      none

/-- One step of Structure.indexPoints: set the index attribute of the point
stored at Python index pn - offset; none models the AttributeError raised
when that slot holds the int 0, or the IndexError when it is out of range. -/
def setIndexAt (l : List Slot) (i : Int) (idx : Int) : Option (List Slot) :=
  match pyResolve l.length i with
  | none => none
  | some j =>
    match l.get? j with
    | some (Slot.point p) => some (l.set j (Slot.point { p with index := idx }))
    | _ => none

/-- Re-indexing of the non-empty points, from Structure.indexPoints: the
point-number list is read once, then for the i-th number pn the point at
slot pn - offset gets index i. -/
def Structure.indexPoints (s : Structure) : Option Structure :=
  let nums := s.getPointNums
  let step := fun (acc : Option (List Slot)) (pr : Nat × Int) =>
    acc.bind (fun l => setIndexAt l (pr.2 - s.offset) (pr.1 : Int))
  (nums.enum.foldl step (some s.points)).map
    (fun l => { s with points := l })

/-- One record of a BED contact list: the fields the module reads are
field 0 (chromosome name), field 1 (first locus position), field 2 (first
locus bin end), field 4 (second locus position), field 6 (contact weight). -/
structure BedRecord where
  chromName : String
  pos1 : Int
  binEnd : Int
  pos2 : Int
  weight : ℚ
deriving DecidableEq, Repr

/-- Ceiling division of integers, used to embed int(np.ceil(float(a)/b)). -/
def ceilDiv (a b : Int) : Int := -((-a).fdiv b)

/-- Largest finite double, the exact value of sys.float_info.max, the
initial running minimum of chromFromBed; stated as a literal (the lemma
floatMax_eq_pow below identifies it with 2 to the 1024 minus 2 to the 971)
so that concrete evaluation does not unfold a deep power. -/
def floatMax : Int := 179769313486231570814527423731704356798070567525844996598917476803157260780028538760589558632766878171540458953514382464234321326889464182768467546703537516986049910576551282076245490090389328944075868508455133942304583236903222948165808559332123348274797826204144723168738177180919299881250404026184124858368

/-- One position step of the chromFromBed scan: the elif makes a position
that lowers the running minimum skip the running-maximum update. -/
def scanStep (st : Int × Int) (p : Int) : Int × Int :=
  if p < st.1 then (p, st.2)
  else if p > st.2 then (st.1, p)
  else st

/-- Running (minimum, maximum) of the chromFromBed scan over a record list,
starting from (sys.float_info.max, 0); pos1 is examined before pos2. -/
def scanMinMax (recs : List BedRecord) : Int × Int :=
  recs.foldl (fun st r => scanStep (scanStep st r.pos1) r.pos2) (floatMax, 0)

/-- Chromosome-parameter derivation from a contact list, from chromFromBed.
Returns none for an empty list (the name, res and line-counter variables
are then unbound, a NameError) and for res = 0 (ZeroDivisionError in the
final rounding). -/
def chromFromBed (recs : List BedRecord) : Option ChromParameters :=
  match recs with
  | [] => none
  | first :: _ =>
    let res := first.binEnd - first.pos1
    let st := scanMinMax recs
    if res = 0 then none
    else
      some { minPos := (st.1.fdiv res) * res
             maxPos := (ceilDiv st.2 res) * res
             res := res
             name := first.chromName
             size := some ((recs.length : Int) - 1) }

/-- One record step of the structureFromBed locus scan.  A record whose two
positions are both inside [start, stop] but where exactly one of them has
no point-number mapping would store a point whose num is None, making the
final re-indexing raise; that path is modeled as none.  When both mappings
fail the Python inequality None != None is false and the record is
skipped. -/
def structureFromBedStep (chrom : ChromParameters) (start stop : Int)
    (l : List Slot) (r : BedRecord) : Option (List Slot) :=
  if r.pos1 ≥ start ∧ r.pos1 ≤ stop ∧ r.pos2 ≥ start ∧ r.pos2 ≤ stop then
    match chrom.getPointNum r.pos1, chrom.getPointNum r.pos2 with
    | some p1, some p2 =>
      if p1 ≠ p2 then
        (pySet l ((r.pos1 - start).fdiv chrom.res)
            (Slot.point { pos := (0, 0, 0), num := p1, chrom := chrom, index := 0 })).bind
          (fun l2 => pySet l2 ((r.pos2 - start).fdiv chrom.res)
            (Slot.point { pos := (0, 0, 0), num := p2, chrom := chrom, index := 0 }))
      else
        some l
    | none, none => some l
    | _, _ => none
  else
    some l

/-- Structure initialization from a contact list, from structureFromBed.
The chrom, start and stop arguments are the explicit values of the Python
keyword arguments (the callers in the claims always determine them); a
negative slot-array length models the np.zeros ValueError. -/
def structureFromBed (recs : List BedRecord) (chrom : ChromParameters)
    (start stop : Int) (offset : Int) : Option Structure :=
  let n := (stop - start).fdiv chrom.res + 1
  if n < 0 then none
  else
    (recs.foldlM (fun l r => structureFromBedStep chrom start stop l r)
        (List.replicate n.toNat Slot.empty)).bind
      (fun l => Structure.indexPoints { points := l, chrom := chrom, offset := offset })

/-- Modelled from the spec: the external array_tools.makeSymmetric mirrors
the directly accumulated lower triangle (row greater or equal col) across
the diagonal so the upper triangle is populated exactly once; the function
itself is not part of src. -/
def makeSymmetric (m : Nat → Nat → ℚ) : Nat → Nat → ℚ :=
  fun i j => if j ≤ i then m i j else m j i

/-- Contact accumulation loop of matFromBed: for each record whose two loci
both map to indices, the weight is added at (max index, min index), with
Python index resolution on the numpoints-sized matrix (none models the
IndexError for an index outside [-numpoints, numpoints)). -/
def accumulateMat (recs : List BedRecord) (s : Structure) (numpoints : Nat) :
    Option (Nat → Nat → ℚ) :=
  recs.foldlM (fun m r =>
    match s.getIndex r.pos1, s.getIndex r.pos2 with
    | some i1, some i2 =>
      let row := if i1 > i2 then i1 else i2
      let col := if i1 > i2 then i2 else i1
      match pyResolve numpoints row, pyResolve numpoints col with
      | some a, some b => some (fun x y => if x = a ∧ y = b then m x y + r.weight else m x y)
      | _, _ => none
    | _, _ => m)
    (fun _ _ => (0 : ℚ))

/-- Sum of row i of a numpoints-by-numpoints matrix. -/
def rowSum (m : Nat → Nat → ℚ) (numpoints i : Nat) : ℚ :=
  ((List.range numpoints).map (fun j => m i j)).sum

/-- Contact-matrix construction, from matFromBed.  The none results model,
in order: the max() ValueError on a structure without points, the assert
failure, an accumulation IndexError, and the sys.exit(1) taken when some
row of the symmetrized matrix sums to zero (the offending genomic
coordinates are printed before exiting). -/
def matFromBed (recs : List BedRecord) (s : Structure) : Option (Nat → Nat → ℚ) :=
  let pointNums := s.getPointNums
  match pointNums.max? with
  | none => none
  | some maxPointNum =>
    if maxPointNum - s.offset < (s.points.length : Int) then
      let numpoints := pointNums.length
      match accumulateMat recs s numpoints with
      | none => none
      | some m0 =>
        let m := makeSymmetric m0
        if (List.range numpoints).any (fun i => decide (rowSum m numpoints i = 0)) then
          none
        else
          some m
    else
      none

/-- Coordinate-wise arithmetic mean of a list of 3-D positions, the
np.mean(..., axis=0) of highToLow (only applied to non-empty lists). -/
def mean3 (l : List (ℚ × ℚ × ℚ)) : ℚ × ℚ × ℚ :=
  ((l.map (fun p => p.1)).sum / (l.length : ℚ),
   (l.map (fun p => p.2.1)).sum / (l.length : ℚ),
   (l.map (fun p => p.2.2)).sum / (l.length : ℚ))

/-- Python append into the bucket list at index i (negative indices wrap,
out-of-range raises). -/
def appendAt (buckets : List (List Point)) (i : Int) (p : Point) :
    Option (List (List Point)) :=
  (pyResolve buckets.length i).map (fun j => buckets.set j (buckets.getD j [] ++ [p]))

/-- Resolution reduction of a structure, from highToLow.  The slot count of
the result is len(points) fdiv rr + 1, the offset is offset fdiv rr, and
the running index of the emitted points starts at the new offset. -/
def highToLow (hs : Structure) (rr : Int) : Option Structure :=
  let lowChrom := hs.chrom.reduceRes rr
  let lowN := (hs.points.length : Int).fdiv rr + 1
  if lowN < 0 then none
  else
    let lowOffset := hs.offset.fdiv rr
    (hs.getPoints.foldlM (fun bs p => appendAt bs ((p.num - hs.offset).fdiv rr) p)
        (List.replicate lowN.toNat ([] : List Point))).map
      (fun buckets =>
        let st := buckets.foldl (fun (st : List Slot × Int) pm =>
          match pm with
          | [] => (st.1 ++ [Slot.empty], st.2)
          | _ :: _ =>
            (st.1 ++ [Slot.point
                { pos := mean3 (pm.map (fun p => p.pos)),
                  num := (st.1.length : Int) + lowOffset,
                  chrom := lowChrom,
                  index := st.2 }],
             st.2 + 1))
          (([] : List Slot), lowOffset)
        { points := st.1, chrom := lowChrom, offset := lowOffset })

/-- Serialized structure file: header (name, resolution, minimum position)
followed by one line per slot carrying the point number and either the
three coordinates or the nan sentinel (embedded as none).  The numeric
text round-trip itself is out of scope per the spec. -/
structure SerializedFile where
  name : String
  res : Int
  minPos : Int
  lines : List (Int × Option (ℚ × ℚ × ℚ))
deriving DecidableEq, Repr

/-- Serialization, from Structure.write: the running num starts at the
structure offset and increments once per slot. -/
def Structure.write (s : Structure) : SerializedFile :=
  { name := s.chrom.name
    res := s.chrom.res
    minPos := s.chrom.minPos
    lines := s.points.enum.map (fun pr =>
      ((pr.1 : Int) + s.offset,
       match pr.2 with
       | Slot.empty => none
       | Slot.point p => some p.pos)) }

/-- Deserialization, from structure_from_file.  A file without data lines
leaves the num variable unbound and the final maxPos assignment raises a
NameError, modeled as none.  The chromosome parameters are shared by every
point, so all points see the maxPos assigned after the loop. -/
def structure_from_file (f : SerializedFile) : Option Structure :=
  match f.lines.getLast? with
  | none => none
  | some lastLine =>
    let chrom : ChromParameters :=
      { minPos := f.minPos
        maxPos := f.minPos + f.res * lastLine.1
        res := f.res
        name := f.name
        size := none }
    let pts := (f.lines.foldl (fun (st : List Slot × Int) ln =>
        match ln.2 with
        | none => (st.1 ++ [Slot.empty], st.2)
        | some pos =>
          (st.1 ++ [Slot.point { pos := pos, num := ln.1, chrom := chrom, index := st.2 }],
           st.2 + 1))
      (([] : List Slot), 0)).1
    some { points := pts, chrom := chrom, offset := 0 }

/-- Parent slot-array derivation from child structures, from
Structure.setstructures.  The none results model the ValueError of max()
on an empty sequence (a child without points, or no children) and the
np.zeros ValueError on a negative size. -/
def setstructures (parent : Structure) (children : List Structure) :
    Option Structure :=
  (children.mapM (fun (c : Structure) => c.getPointNums.max?)).bind (fun ms =>
    match ms.max? with
    | none => none
    | some m =>
      if m + 1 < 0 then none
      else
        (children.foldlM (fun (l : List Slot) (c : Structure) =>
            c.points.foldlM (fun (l2 : List Slot) (sl : Slot) =>
              match sl with
              | Slot.empty => some l2
              | Slot.point p => pySet l2 p.num (Slot.point p)) l)
          (List.replicate (m + 1).toNat Slot.empty)).map
        (fun l => { parent with points := l }))

/-- All genomic coordinates of a structure list, with multiplicity, in the
order the gen_coord_dict of make_compatible counts them. -/
def allGenCoords (ss : List Structure) : List Int :=
  (ss.map Structure.getGenCoords).flatten

/-- Consensus coordinates of make_compatible: the coordinates whose count
equals the number of structures, sorted ascending (np.sort). -/
def consensusOf (ss : List Structure) : List Int :=
  let all := allGenCoords ss
  (all.dedup.filter (fun c => all.count c = ss.length)).mergeSort
    (fun a b => decide (a ≤ b))

/-- Rewrite of one structure over the consensus coordinates, from the
second loop of make_compatible.  Failures modeled as none: a coordinate
with no point-number mapping in the old or new chromosome (the subsequent
indexing with None misbehaves), an out-of-range old point number
(IndexError), an empty old slot (AttributeError on .pos), or an
out-of-range write.  The structure offset is left unchanged, as in the
source. -/
def rebuildOne (consensus : List Int) (c0 cLast : Int) (s : Structure) :
    Option Structure :=
  let newChrom : ChromParameters :=
    { minPos := c0
      maxPos := cLast + s.chrom.res
      res := s.chrom.res
      name := s.chrom.name
      size := s.chrom.size }
  let n := newChrom.getLength
  if n < 0 then none
  else
    (consensus.enum.foldlM (fun (pts : List Slot) (pr : Nat × Int) =>
        match s.chrom.getPointNum pr.2 with
        | none => none
        | some oldPn =>
          match pyGet s.points oldPn with
          | some (Slot.point p) =>
            match newChrom.getPointNum pr.2 with
            | none => none
            | some newPn =>
              pySet pts newPn (Slot.point
                { pos := p.pos, num := newPn, chrom := newChrom, index := (pr.1 : Int) })
          | _ => none)
      (List.replicate n.toNat Slot.empty)).map
    (fun pts => { points := pts, chrom := newChrom, offset := s.offset })

/-- Consensus alignment, from make_compatible.  The in-place rewrite of the
input structures is embedded as the returned list; an empty consensus makes
consensus[0] raise an IndexError, modeled as none. -/
def make_compatible (ss : List Structure) : Option (List Structure) :=
  let consensus := consensusOf ss
  match consensus with
  | [] => none
  | c0 :: _ => ss.mapM (rebuildOne consensus c0 (consensus.getLastD c0))

/-- All locus positions of a record list, pos1 before pos2 per record, in
the order the chromFromBed scan examines them. -/
def allPositions (recs : List BedRecord) : List Int :=
  (recs.map (fun r => [r.pos1, r.pos2])).flatten

/-- List-level point numbers of a slot list (getPointNums of a structure
with that points array). -/
def slotNums (l : List Slot) : List Int :=
  l.filterMap (fun sl => match sl with
    | Slot.empty => none
    | Slot.point p => some p.num)

/-- List-level non-empty points of a slot list. -/
def slotPoints (l : List Slot) : List Point :=
  l.filterMap (fun sl => match sl with
    | Slot.empty => none
    | Slot.point p => some p)

/-- Positions (array indices) of the non-empty slots, ascending. -/
def posOf : List Slot → List Nat
  | [] => []
  | Slot.empty :: l => (posOf l).map (fun t => t + 1)
  | Slot.point _ :: l => 0 :: (posOf l).map (fun t => t + 1)

/-- Slot list with the index fields of the non-empty points reassigned
densely in slot order from a starting rank (the specification-side picture
of what indexPoints computes). -/
def reindexed : List Slot → Int → List Slot
  | [], _ => []
  | Slot.empty :: l, r => Slot.empty :: reindexed l r
  | Slot.point p :: l, r => Slot.point { p with index := r } :: reindexed l (r + 1)

/-- Recursive form of the slot-building loop of structure_from_file. -/
def readSlots (ch : ChromParameters) : List (Int × Option (ℚ × ℚ × ℚ)) → Int → List Slot
  | [], _ => []
  | (_, none) :: rest, idx => Slot.empty :: readSlots ch rest idx
  | (n, some pos) :: rest, idx =>
    Slot.point { pos := pos, num := n, chrom := ch, index := idx } :: readSlots ch rest (idx + 1)

/-- Recursive form of the line-writing loop of Structure.write. -/
def writeLines : List Slot → Int → List (Int × Option (ℚ × ℚ × ℚ))
  | [], _ => []
  | Slot.empty :: l, n => (n, none) :: writeLines l (n + 1)
  | Slot.point p :: l, n => (n, some p.pos) :: writeLines l (n + 1)

/-- List-level form of the slot invariant, offset explicit. -/
def listInv (l : List Slot) (off : Int) : Prop :=
  ∀ i : Nat, ∀ h : i < l.length, (l.get ⟨i, h⟩).okNum ((i : Int) + off)

/-- Recursive form of the emit loop of highToLow: one slot per bucket, an
empty bucket gives an empty slot, a non-empty bucket gives a point whose
position is the coordinate mean, whose num is the bucket position plus the
low offset, and whose index advances over non-empty buckets. -/
def emitBuckets (lowOff : Int) (ch : ChromParameters) :
    List (List Point) → Nat → Int → List Slot
  | [], _, _ => []
  | [] :: rest, bpos, idx => Slot.empty :: emitBuckets lowOff ch rest (bpos + 1) idx
  | pm :: rest, bpos, idx =>
    Slot.point
      { pos := mean3 (pm.map (fun p => p.pos))
        num := (bpos : Int) + lowOff
        chrom := ch
        index := idx } :: emitBuckets lowOff ch rest (bpos + 1) (idx + 1)

/-- Emptiness of a slot as a Boolean, for stating emptiness-pattern
preservation. -/
def slotIsEmpty : Slot → Bool
  | Slot.empty => true
  | Slot.point _ => false

/-- Position carried over by make_compatible for coordinate c of an old
structure: the pos of the point the source reads at points[getPointNum c]
(a default for the failure cases, which the theorems exclude). -/
def oldPosAt (s : Structure) (c : Int) : ℚ × ℚ × ℚ :=
  match pyGet s.points ((s.chrom.getPointNum c).getD 0) with
  | some (Slot.point p) => p.pos
  | _ => (0, 0, 0)

/-- The write performed by the rebuild loop of make_compatible for the
rank-coordinate pair pr: target slot and stored point. -/
def rebuildWrite (s : Structure) (nc : ChromParameters) (pr : Nat × Int) : Nat × Point :=
  (((nc.getPointNum pr.2).getD 0).toNat,
   { pos := oldPosAt s pr.2
     num := (nc.getPointNum pr.2).getD 0
     chrom := nc
     index := (pr.1 : Int) })

/-- The chromosome make_compatible builds for a structure: consensus head as
minPos, consensus last plus one resolution step as maxPos. -/
def ncOf (s : Structure) (cs : List Int) : ChromParameters :=
  { minPos := cs.headD 0
    maxPos := cs.getLastD 0 + s.chrom.res
    res := s.chrom.res
    name := s.chrom.name
    size := s.chrom.size }

/-- Concrete chromosome for exercising make_compatible. -/
def chA8 : ChromParameters :=
  { minPos := 0, maxPos := 5000, res := 1000, name := "c", size := none }

/-- Offset-1 structure with points at genomic coordinates 1000 and 2000. -/
def sA8 : Structure :=
  { points := [Slot.point { pos := (1, 0, 0), num := 1, chrom := chA8, index := 0 },
               Slot.point { pos := (2, 0, 0), num := 2, chrom := chA8, index := 1 }]
    chrom := chA8
    offset := 1 }

/-- Offset-0 structure with a single point at genomic coordinate 1000. -/
def sB8 : Structure :=
  { points := [Slot.empty,
               Slot.point { pos := (3, 0, 0), num := 1, chrom := chA8, index := 0 }]
    chrom := chA8
    offset := 0 }

/-- Concrete chromosome for the offset-0 make_compatible instance. -/
def chW8 : ChromParameters :=
  { minPos := 0, maxPos := 2000, res := 1000, name := "w", size := none }

/-- Offset-0 structure with points at genomic coordinates 0 and 2000. -/
def sW8 : Structure :=
  { points := [Slot.point { pos := (1, 0, 0), num := 0, chrom := chW8, index := 0 },
               Slot.empty,
               Slot.point { pos := (2, 0, 0), num := 2, chrom := chW8, index := 1 }]
    chrom := chW8
    offset := 0 }

/-! Helper lemmas shared by several claims. -/

/-- Python 2 floor division of integers agrees with the rational floor. -/
theorem fdiv_eq_floorQ (a b : Int) (hb : 0 < b) :
    a.fdiv b = ⌊(a : ℚ) / (b : ℚ)⌋ := by
  have hbn : b = ((b.toNat : ℕ) : Int) := (Int.toNat_of_nonneg hb.le).symm
  rw [Int.fdiv_eq_ediv a hb.le, hbn,
    show (((b.toNat : ℕ) : Int) : ℚ) = ((b.toNat : ℕ) : ℚ) by push_cast; ring]
  exact (Rat.floor_intCast_div_natCast a b.toNat).symm

/-- The embedded int(np.ceil(float(a)/b)) agrees with the rational ceiling. -/
theorem ceilDiv_eq_ceilQ (a b : Int) (hb : 0 < b) :
    ceilDiv a b = ⌈(a : ℚ) / (b : ℚ)⌉ := by
  unfold ceilDiv
  rw [fdiv_eq_floorQ _ _ hb]
  rw [show ((-a : Int) : ℚ) / (b : ℚ) = -((a : ℚ) / (b : ℚ)) by push_cast; ring]
  rw [Int.floor_neg, neg_neg]

/-- Floor division by a positive integer is monotone in the dividend. -/
theorem fdiv_le_fdiv_of_le {a c : Int} (b : Int) (hb : 0 < b) (h : a ≤ c) :
    a.fdiv b ≤ c.fdiv b := by
  rw [Int.fdiv_eq_ediv a hb.le, Int.fdiv_eq_ediv c hb.le]
  exact Int.ediv_le_ediv hb h

/-- C1: for a ChromParameters with positive resolution and ordered bounds,
getPointNum returns none exactly outside [minPos, maxPos], returns the
floor of (genCoord - minPos)/res inside, is monotone non-decreasing over
the valid range, and maps minPos to 0. -/
theorem c1_getPointNum_spec (c : ChromParameters) (hres : 0 < c.res)
    (hmm : c.minPos ≤ c.maxPos) :
    (∀ g : Int, (g < c.minPos ∨ g > c.maxPos) → c.getPointNum g = none) ∧
    (∀ g : Int, c.minPos ≤ g → g ≤ c.maxPos →
      c.getPointNum g = some ⌊((g : ℚ) - (c.minPos : ℚ)) / (c.res : ℚ)⌋) ∧
    (∀ g1 g2 : Int, c.minPos ≤ g1 → g1 ≤ g2 → g2 ≤ c.maxPos →
      ∀ v1 v2 : Int, c.getPointNum g1 = some v1 → c.getPointNum g2 = some v2 →
        v1 ≤ v2) ∧
    c.getPointNum c.minPos = some 0 := by
  have hval : ∀ g : Int, c.minPos ≤ g → g ≤ c.maxPos →
      c.getPointNum g = some ((g - c.minPos).fdiv c.res) := by
    intro g h1 h2
    unfold ChromParameters.getPointNum
    rw [if_neg]
    push_neg
    exact ⟨h1, h2⟩
  refine ⟨?_, ?_, ?_, ?_⟩
  · intro g hg
    unfold ChromParameters.getPointNum
    rw [if_pos hg]
  · intro g h1 h2
    rw [hval g h1 h2, fdiv_eq_floorQ _ _ hres]
    congr 2
    push_cast
    ring
  · intro g1 g2 h1 h12 h2 v1 v2 hv1 hv2
    rw [hval g1 h1 (le_trans h12 h2)] at hv1
    rw [hval g2 (le_trans h1 h12) h2] at hv2
    cases hv1
    cases hv2
    exact fdiv_le_fdiv_of_le c.res hres (by omega)
  · rw [hval c.minPos le_rfl hmm, sub_self, Int.zero_fdiv]

/-- C1 witness at a concrete chromosome. -/
theorem c1_witness :
    ChromParameters.getPointNum ⟨1000, 5000, 1000, "chr1", some 0⟩ 1000 = some 0 :=
  (c1_getPointNum_spec ⟨1000, 5000, 1000, "chr1", some 0⟩ (by decide) (by decide)).2.2.2

/-- C3 counterexample: on the chromosome (minPos 0, maxPos 1500, res 1000)
with ratio 2 the source computes maxPos 0, while the claimed ceiling
rounding gives 2000. -/
theorem c3_counterexample :
    (ChromParameters.reduceRes ⟨0, 1500, 1000, "chr1", none⟩ 2).maxPos = 0 ∧
    ⌈(1500 : ℚ) / (2000 : ℚ)⌉ * 2000 = 2000 ∧ (0 : Int) ≠ 2000 := by
  refine ⟨rfl, ?_, by decide⟩
  norm_num
  rw [Int.ceil_eq_iff]
  norm_num

/-- C3 amended: reduceRes multiplies the resolution by the ratio, keeps
name and size, and rounds BOTH bounds with floor division by the new
resolution (the claim said ceiling for maxPos; the source floors it). -/
theorem c3_reduceRes_amended (c : ChromParameters) (rr : Int)
    (hres : 0 < c.res) (hrr : 0 < rr) :
    (c.reduceRes rr).res = c.res * rr ∧
    (c.reduceRes rr).minPos =
      ⌊(c.minPos : ℚ) / ((c.res * rr : Int) : ℚ)⌋ * (c.res * rr) ∧
    (c.reduceRes rr).maxPos =
      ⌊(c.maxPos : ℚ) / ((c.res * rr : Int) : ℚ)⌋ * (c.res * rr) ∧
    (c.reduceRes rr).name = c.name ∧
    (c.reduceRes rr).size = c.size := by
  have hpos : 0 < c.res * rr := mul_pos hres hrr
  refine ⟨rfl, ?_, ?_, rfl, rfl⟩
  · show (c.minPos.fdiv (c.res * rr)) * (c.res * rr) = _
    rw [fdiv_eq_floorQ _ _ hpos]
  · show (c.maxPos.fdiv (c.res * rr)) * (c.res * rr) = _
    rw [fdiv_eq_floorQ _ _ hpos]

/-- C3 witness at a concrete chromosome and ratio. -/
theorem c3_witness :
    (ChromParameters.reduceRes ⟨0, 1500, 1000, "chr1", none⟩ 2).res = 2000 := by
  have h := (c3_reduceRes_amended ⟨0, 1500, 1000, "chr1", none⟩ 2
    (by decide) (by decide)).1
  rw [h]
  decide


theorem scanStep_fst (st : Int × Int) (p : Int) : (scanStep st p).1 = min st.1 p := by
  unfold scanStep
  rcases lt_or_le p st.1 with h | h
  · rw [if_pos h]
    exact (min_eq_right h.le).symm
  · rw [if_neg (not_lt.mpr h)]
    have hm : min st.1 p = st.1 := min_eq_left h
    by_cases h2 : p > st.2
    · rw [if_pos h2, hm]
    · rw [if_neg h2, hm]

theorem scanFold_fst (recs : List BedRecord) :
    ∀ st : Int × Int,
      (recs.foldl (fun st r => scanStep (scanStep st r.pos1) r.pos2) st).1 =
        (allPositions recs).foldl min st.1 := by
  induction recs with
  | nil => intro st; rfl
  | cons r rest ih =>
    intro st
    have h1 : (scanStep (scanStep st r.pos1) r.pos2).1 = min (min st.1 r.pos1) r.pos2 := by
      rw [scanStep_fst, scanStep_fst]
    simp only [List.foldl_cons, allPositions, List.map_cons, List.flatten_cons]
    rw [ih (scanStep (scanStep st r.pos1) r.pos2), h1]
    rfl

theorem foldl_min_le_init (l : List Int) : ∀ a : Int, l.foldl min a ≤ a := by
  induction l with
  | nil => intro a; exact le_rfl
  | cons x xs ih =>
    intro a
    exact le_trans (ih (min a x)) (min_le_left a x)

theorem foldl_min_le_mem (l : List Int) :
    ∀ a : Int, ∀ p ∈ l, l.foldl min a ≤ p := by
  induction l with
  | nil => intro a p hp; cases hp
  | cons x xs ih =>
    intro a p hp
    rcases List.mem_cons.mp hp with h | h
    · subst h
      exact le_trans (foldl_min_le_init xs (min a p)) (min_le_right a p)
    · exact ih (min a x) p h

theorem foldl_min_eq_or_mem (l : List Int) :
    ∀ a : Int, l.foldl min a = a ∨ l.foldl min a ∈ l := by
  induction l with
  | nil => intro a; exact Or.inl rfl
  | cons x xs ih =>
    intro a
    rcases ih (min a x) with h | h
    · rcases min_choice a x with h2 | h2
      · exact Or.inl (by rw [List.foldl_cons, h, h2])
      · exact Or.inr (by rw [List.foldl_cons, h, h2]; exact List.mem_cons_self x xs)
    · exact Or.inr (List.mem_cons_of_mem x h)

/-- The running minimum of the chromFromBed scan is the true minimum of all
positions, provided every position is below the float initializer. -/
theorem scanMinMax_fst_eq_min (recs : List BedRecord) (m : Int)
    (hm : (allPositions recs).min? = some m)
    (hbound : ∀ p ∈ allPositions recs, p < floatMax) :
    (scanMinMax recs).1 = m := by
  have hmem : m ∈ allPositions recs := List.min?_mem min_choice hm
  have hle : ∀ b ∈ allPositions recs, m ≤ b :=
    fun b hb => (List.le_min?_iff (fun a b c => le_min_iff) hm).mp le_rfl b hb
  have hfold : (scanMinMax recs).1 = (allPositions recs).foldl min floatMax :=
    scanFold_fst recs (floatMax, 0)
  rw [hfold]
  have h1 : (allPositions recs).foldl min floatMax ≤ m :=
    foldl_min_le_mem _ floatMax m hmem
  rcases foldl_min_eq_or_mem (allPositions recs) floatMax with h | h
  · exact absurd (h ▸ h1) (not_le.mpr (hbound m hmem))
  · exact le_antisymm h1 (hle _ h)

/-- C7 counterexample: on the single record (chr1, 5000, 6000, 4000), the
source returns maxPos 0 (the elif never sees 5000 as a maximum because it
arrives as a new minimum) where the claimed rounded maximum of positions is
5000, and size 0 where the claimed record count is 1. -/
theorem c7_counterexample :
    chromFromBed [⟨"chr1", 5000, 6000, 4000, 1⟩] =
      some ⟨4000, 0, 1000, "chr1", some 0⟩ ∧
    (0 : Int) ≠ ⌈(5000 : ℚ) / (1000 : ℚ)⌉ * 1000 ∧
    (some 0 : Option Int) ≠ some 1 := by
  refine ⟨by decide, ?_, by decide⟩
  intro h
  rw [show ((5000 : ℚ) / 1000) = ((5 : Int) : ℚ) by norm_num] at h
  rw [Int.ceil_intCast] at h
  norm_num at h

/-- C7 amended: chromFromBed infers the resolution from the first record,
rounds the true minimum position down to a multiple of the resolution, sets
size to the record count MINUS ONE (the claim said the count), and rounds
the running maximum of its min-first scan (not in general the true
maximum: a position strictly below the running minimum never updates the
maximum) up to a multiple of the resolution. -/
theorem c7_chromFromBed_amended (r0 : BedRecord) (rest : List BedRecord) (m : Int)
    (hres : 0 < r0.binEnd - r0.pos1)
    (hm : (allPositions (r0 :: rest)).min? = some m)
    (hbound : ∀ p ∈ allPositions (r0 :: rest), p < floatMax) :
    chromFromBed (r0 :: rest) = some
      { minPos := ⌊(m : ℚ) / ((r0.binEnd - r0.pos1 : Int) : ℚ)⌋ * (r0.binEnd - r0.pos1)
        maxPos := ⌈(((scanMinMax (r0 :: rest)).2 : Int) : ℚ) /
            ((r0.binEnd - r0.pos1 : Int) : ℚ)⌉ * (r0.binEnd - r0.pos1)
        res := r0.binEnd - r0.pos1
        name := r0.chromName
        size := some (((r0 :: rest).length : Int) - 1) } ∧
    (scanMinMax (r0 :: rest)).1 = m := by
  have hfst := scanMinMax_fst_eq_min (r0 :: rest) m hm hbound
  constructor
  · show (if r0.binEnd - r0.pos1 = 0 then none else _) = _
    rw [if_neg (ne_of_gt hres)]
    congr 1
    congr 1
    · show ((scanMinMax (r0 :: rest)).1.fdiv (r0.binEnd - r0.pos1)) * _ = _
      rw [hfst, fdiv_eq_floorQ _ _ hres]
    · show (ceilDiv (scanMinMax (r0 :: rest)).2 (r0.binEnd - r0.pos1)) * _ = _
      rw [ceilDiv_eq_ceilQ _ _ hres]
  · exact hfst

/-- C7 witness at a concrete single-record list. -/
theorem c7_witness :
    chromFromBed [⟨"chr1", 1000, 2000, 5000, 3⟩] =
      some ⟨1000, 5000, 1000, "chr1", some 0⟩ := by
  have h := (c7_chromFromBed_amended ⟨"chr1", 1000, 2000, 5000, 3⟩ [] 1000
    (by decide) (by decide) (by decide)).1
  rw [h]
  have hs : (scanMinMax [(⟨"chr1", 1000, 2000, 5000, 3⟩ : BedRecord)]).2 = 5000 := by
    decide
  simp only [hs, Option.some.injEq, ChromParameters.mk.injEq]
  norm_num

theorem floatMax_eq_pow : floatMax = 2 ^ 1024 - 2 ^ 971 := by
  norm_num [floatMax]

theorem makeSymmetric_symm (m : Nat → Nat → ℚ) (i j : Nat) :
    makeSymmetric m i j = makeSymmetric m j i := by
  unfold makeSymmetric
  rcases le_total i j with h | h
  · rcases eq_or_lt_of_le h with h2 | h2
    · subst h2; rfl
    · rw [if_neg (by omega), if_pos (by omega)]
  · rcases eq_or_lt_of_le h with h2 | h2
    · subst h2; rfl
    · rw [if_pos (by omega), if_neg (by omega)]

/-- A some result of matFromBed is the symmetrized accumulation matrix. -/
theorem matFromBed_eq_some {recs : List BedRecord} {s : Structure}
    {M : Nat → Nat → ℚ} (h : matFromBed recs s = some M) :
    ∃ m0, accumulateMat recs s s.getPointNums.length = some m0 ∧
      M = makeSymmetric m0 := by
  unfold matFromBed at h
  dsimp only at h
  split at h
  · exact absurd h (by simp)
  · split at h
    · split at h
      next => exact absurd h (by simp)
      next m0 heq =>
        split at h
        · exact absurd h (by simp)
        · exact ⟨m0, heq, (Option.some.inj h).symm⟩
    · exact absurd h (by simp)

/-- Membership of a point in getPoints from a slot of the array. -/
theorem mem_getPoints_of_mem_points {s : Structure} {p : Point}
    (h : Slot.point p ∈ s.points) : p ∈ s.getPoints := by
  unfold Structure.getPoints
  exact List.mem_filterMap.mpr ⟨Slot.point p, h, rfl⟩

/-- A some result of getIndex is the index of some non-empty point. -/
theorem getIndex_mem {s : Structure} {g i : Int} (h : s.getIndex g = some i) :
    ∃ p ∈ s.getPoints, p.index = i := by
  unfold Structure.getIndex at h
  split at h
  · exact absurd h (by simp)
  · dsimp only at h
    split at h
    · split at h
      next p heq =>
        refine ⟨p, ?_, Option.some.inj h⟩
        exact mem_getPoints_of_mem_points (List.get?_mem heq)
      next => exact absurd h (by simp)
    · exact absurd h (by simp)

/-- The accumulation preserves a zero diagonal when no retained record has
both loci on the same index and all point indices are non-negative. -/
theorem accumulateMat_diag_zero (s : Structure) (k : Nat)
    (hidx : ∀ p ∈ s.getPoints, 0 ≤ p.index) :
    ∀ (recs : List BedRecord) (m : Nat → Nat → ℚ),
      (∀ i, m i i = 0) →
      (∀ r ∈ recs, s.getIndex r.pos1 = s.getIndex r.pos2 →
        s.getIndex r.pos1 = none) →
      ∀ m0, recs.foldlM (fun m r =>
          match s.getIndex r.pos1, s.getIndex r.pos2 with
          | some i1, some i2 =>
            let row := if i1 > i2 then i1 else i2
            let col := if i1 > i2 then i2 else i1
            match pyResolve k row, pyResolve k col with
            | some a, some b =>
              some (fun x y => if x = a ∧ y = b then m x y + r.weight else m x y)
            | _, _ => none
          | _, _ => m) m = some m0 →
        ∀ i, m0 i i = 0 := by
  intro recs
  induction recs with
  | nil =>
    intro m hdiag _ m0 h0 i
    cases h0
    exact hdiag i
  | cons r rest ih =>
    intro m hdiag hno m0 h0 i
    rw [List.foldlM_cons] at h0
    rcases h1 : s.getIndex r.pos1 with _ | i1 <;>
      rcases h2 : s.getIndex r.pos2 with _ | i2 <;>
        rw [h1, h2] at h0
    · exact ih m hdiag (fun r hr => hno r (List.mem_cons_of_mem _ hr)) m0 h0 i
    · exact ih m hdiag (fun r hr => hno r (List.mem_cons_of_mem _ hr)) m0 h0 i
    · exact ih m hdiag (fun r hr => hno r (List.mem_cons_of_mem _ hr)) m0 h0 i
    · have hne : i1 ≠ i2 := by
        intro hEq
        subst hEq
        have := hno r (List.mem_cons_self r rest) (by rw [h1, h2])
        rw [h1] at this
        cases this
      have hi1 : 0 ≤ i1 := by
        obtain ⟨p, hp, hpi⟩ := getIndex_mem h1
        exact hpi ▸ hidx p hp
      have hi2 : 0 ≤ i2 := by
        obtain ⟨p, hp, hpi⟩ := getIndex_mem h2
        exact hpi ▸ hidx p hp
      dsimp only at h0
      rcases ha : pyResolve k (if i1 > i2 then i1 else i2) with _ | a <;>
        rcases hb : pyResolve k (if i1 > i2 then i2 else i1) with _ | b <;>
          rw [ha, hb] at h0
      · exact Option.noConfusion h0
      · exact Option.noConfusion h0
      · exact Option.noConfusion h0
      · have hrowcol : (if i1 > i2 then i1 else i2) ≠ (if i1 > i2 then i2 else i1) := by
          split <;> omega
        have hane : a ≠ b := by
          unfold pyResolve at ha hb
          have hrow0 : 0 ≤ (if i1 > i2 then i1 else i2) := by split <;> omega
          have hcol0 : 0 ≤ (if i1 > i2 then i2 else i1) := by split <;> omega
          by_cases hra : (if i1 > i2 then i1 else i2) < (k : Int)
          · rw [if_pos ⟨hrow0, hra⟩] at ha
            by_cases hrb : (if i1 > i2 then i2 else i1) < (k : Int)
            · rw [if_pos ⟨hcol0, hrb⟩] at hb
              injection ha with ha'
              injection hb with hb'
              subst ha'
              subst hb'
              intro hab
              exact hrowcol (by omega)
            · rw [if_neg (by omega), if_neg (by omega)] at hb
              cases hb
          · rw [if_neg (by omega), if_neg (by omega)] at ha
            cases ha
        refine ih _ ?_ (fun r hr => hno r (List.mem_cons_of_mem _ hr)) m0 h0 i
        intro x
        show (if x = a ∧ x = b then m x x + r.weight else m x x) = 0
        rw [if_neg]
        · exact hdiag x
        · rintro ⟨hxa, hxb⟩
          exact hane (hxa ▸ hxb ▸ rfl)

/-- C2 corrected: the matFromBed output is always symmetric, and the
diagonal is not touched PROVIDED no record has both loci mapping to the
same compact index (point indices assumed non-negative, as every
constructor of the module produces); a record whose loci map to one index
does increment the diagonal, see the counterexample. -/
theorem c2_matFromBed_symmetric_diag (recs : List BedRecord) (s : Structure) :
    (∀ i j : Nat, (matFromBed recs s).map (fun m => m i j) =
        (matFromBed recs s).map (fun m => m j i)) ∧
    ((∀ p ∈ s.getPoints, 0 ≤ p.index) →
     (∀ r ∈ recs, s.getIndex r.pos1 = s.getIndex r.pos2 →
        s.getIndex r.pos1 = none) →
      ∀ i : Nat, (matFromBed recs s).map (fun m => m i i) =
        (matFromBed recs s).map (fun _ => (0 : ℚ))) := by
  constructor
  · intro i j
    rcases hM : matFromBed recs s with _ | M
    · rfl
    · obtain ⟨m0, _, hsym⟩ := matFromBed_eq_some hM
      simp only [Option.map_some']
      rw [hsym, makeSymmetric_symm]
  · intro hidx hno i
    rcases hM : matFromBed recs s with _ | M
    · rfl
    · obtain ⟨m0, hacc, hsym⟩ := matFromBed_eq_some hM
      have hdiag : ∀ x, m0 x x = 0 :=
        accumulateMat_diag_zero s s.getPointNums.length hidx recs
          (fun _ _ => (0 : ℚ)) (fun _ => rfl) hno m0 hacc
      simp only [Option.map_some', hsym]
      have : makeSymmetric m0 i i = m0 i i := by
        show (if i ≤ i then m0 i i else m0 i i) = m0 i i
        rw [if_pos le_rfl]
      rw [this, hdiag i]

/-- C2 witness: a concrete structure (points at numbers 0 and 5) and a
single cross-contact record; symmetry and an untouched diagonal hold. -/
theorem c2_witness :
    ((matFromBed [⟨"chr1", 0, 1000, 5000, 2⟩]
        ⟨[Slot.point ⟨(0, 0, 0), 0, ⟨0, 5000, 1000, "chr1", none⟩, 0⟩,
          Slot.empty, Slot.empty, Slot.empty, Slot.empty,
          Slot.point ⟨(0, 0, 0), 5, ⟨0, 5000, 1000, "chr1", none⟩, 1⟩],
         ⟨0, 5000, 1000, "chr1", none⟩, 0⟩).map (fun m => m 0 1) =
     (matFromBed [⟨"chr1", 0, 1000, 5000, 2⟩]
        ⟨[Slot.point ⟨(0, 0, 0), 0, ⟨0, 5000, 1000, "chr1", none⟩, 0⟩,
          Slot.empty, Slot.empty, Slot.empty, Slot.empty,
          Slot.point ⟨(0, 0, 0), 5, ⟨0, 5000, 1000, "chr1", none⟩, 1⟩],
         ⟨0, 5000, 1000, "chr1", none⟩, 0⟩).map (fun m => m 1 0)) ∧
    ((matFromBed [⟨"chr1", 0, 1000, 5000, 2⟩]
        ⟨[Slot.point ⟨(0, 0, 0), 0, ⟨0, 5000, 1000, "chr1", none⟩, 0⟩,
          Slot.empty, Slot.empty, Slot.empty, Slot.empty,
          Slot.point ⟨(0, 0, 0), 5, ⟨0, 5000, 1000, "chr1", none⟩, 1⟩],
         ⟨0, 5000, 1000, "chr1", none⟩, 0⟩).map (fun m => m 0 0) =
     (matFromBed [⟨"chr1", 0, 1000, 5000, 2⟩]
        ⟨[Slot.point ⟨(0, 0, 0), 0, ⟨0, 5000, 1000, "chr1", none⟩, 0⟩,
          Slot.empty, Slot.empty, Slot.empty, Slot.empty,
          Slot.point ⟨(0, 0, 0), 5, ⟨0, 5000, 1000, "chr1", none⟩, 1⟩],
         ⟨0, 5000, 1000, "chr1", none⟩, 0⟩).map (fun _ => (0 : ℚ))) :=
  ⟨(c2_matFromBed_symmetric_diag _ _).1 0 1,
   (c2_matFromBed_symmetric_diag _ _).2 (by decide) (by decide) 0⟩

section
attribute [local semireducible] Rat.add Rat.mul Rat.sub Rat.inv

set_option maxRecDepth 10000 in
/-- C2 counterexample: the record (pos1 0, pos2 500) has both loci in bin
0, whose point exists because of the second record; matFromBed adds its
weight 3 on the diagonal entry (0,0), so contact accumulation does
populate the diagonal for records whose loci map to the same index. -/
theorem c2_counterexample :
    (matFromBed [⟨"chr1", 0, 1000, 500, 3⟩, ⟨"chr1", 0, 1000, 5000, 2⟩]
        ⟨[Slot.point ⟨(0, 0, 0), 0, ⟨0, 5000, 1000, "chr1", none⟩, 0⟩,
          Slot.empty, Slot.empty, Slot.empty, Slot.empty,
          Slot.point ⟨(0, 0, 0), 5, ⟨0, 5000, 1000, "chr1", none⟩, 1⟩],
         ⟨0, 5000, 1000, "chr1", none⟩, 0⟩).map (fun m => m 0 0) =
      some 3 ∧ (3 : ℚ) ≠ 0 := by
  exact ⟨by decide, by norm_num⟩

end

/-- Each member of getPoints sits in some slot of the array. -/
theorem getPoints_exists_slot {s : Structure} {p : Point}
    (h : p ∈ s.getPoints) :
    ∃ i : Nat, ∃ hlt : i < s.points.length, s.points.get ⟨i, hlt⟩ = Slot.point p := by
  unfold Structure.getPoints at h
  obtain ⟨sl, hsl, hf⟩ := List.mem_filterMap.mp h
  cases sl with
  | empty => exact absurd hf (by simp)
  | point q =>
    obtain ⟨n, hn⟩ := List.get_of_mem hsl
    injection hf with hq
    subst hq
    exact ⟨n.1, n.2, hn⟩

/-- Under the slot invariant the assert of matFromBed holds: the largest
point number minus the offset is inside the slot array. -/
theorem maxnum_lt_of_invariant {s : Structure} {mx : Int}
    (hinv : slotInvariant s) (hmx : s.getPointNums.max? = some mx) :
    mx - s.offset < (s.points.length : Int) := by
  have hmem : mx ∈ s.getPointNums := List.max?_mem max_choice hmx
  unfold Structure.getPointNums at hmem
  obtain ⟨p, hp, hnum⟩ := List.mem_map.mp hmem
  obtain ⟨i, hlt, hslot⟩ := getPoints_exists_slot hp
  have := hinv i hlt
  rw [hslot] at this
  have hnum2 : p.num = (i : Int) + s.offset := this
  omega

/-- With all point indices inside [0, k) the accumulation never raises. -/
theorem accumulateMat_isSome (s : Structure) (k : Nat)
    (hidx : ∀ p ∈ s.getPoints, 0 ≤ p.index ∧ p.index < (k : Int)) :
    ∀ (recs : List BedRecord) (m : Nat → Nat → ℚ),
      (recs.foldlM (fun (m : Nat → Nat → ℚ) (r : BedRecord) =>
          match s.getIndex r.pos1, s.getIndex r.pos2 with
          | some i1, some i2 =>
            let row := if i1 > i2 then i1 else i2
            let col := if i1 > i2 then i2 else i1
            match pyResolve k row, pyResolve k col with
            | some a, some b =>
              some (fun x y => if x = a ∧ y = b then m x y + r.weight else m x y)
            | _, _ => none
          | _, _ => m) m).isSome = true := by
  intro recs
  induction recs with
  | nil => intro m; rfl
  | cons r rest ih =>
    intro m
    rw [List.foldlM_cons]
    rcases h1 : s.getIndex r.pos1 with _ | i1 <;>
      rcases h2 : s.getIndex r.pos2 with _ | i2
    · exact ih m
    · exact ih m
    · exact ih m
    · have hi1 : 0 ≤ i1 ∧ i1 < (k : Int) := by
        obtain ⟨p, hp, hpi⟩ := getIndex_mem h1
        exact hpi ▸ hidx p hp
      have hi2 : 0 ≤ i2 ∧ i2 < (k : Int) := by
        obtain ⟨p, hp, hpi⟩ := getIndex_mem h2
        exact hpi ▸ hidx p hp
      have hrow : pyResolve k (if i1 > i2 then i1 else i2) =
          some (if i1 > i2 then i1 else i2).toNat := by
        unfold pyResolve
        rw [if_pos (by split <;> omega)]
      have hcol : pyResolve k (if i1 > i2 then i2 else i1) =
          some (if i1 > i2 then i2 else i1).toNat := by
        unfold pyResolve
        rw [if_pos (by split <;> omega)]
      dsimp only
      rw [hrow, hcol]
      exact ih _

/-- C9: with a non-empty point set satisfying the slot invariant and
compact indices inside [0, k), matFromBed accumulates without error and
aborts exactly when some row of the symmetrized matrix sums to zero; a
returned matrix never contains a zero-sum row.  (The printing of the
offending genomic coordinates before sys.exit is outside the embedding.) -/
theorem c9_matFromBed_zero_row_abort (recs : List BedRecord) (s : Structure)
    (hinv : slotInvariant s) (hne : s.getPoints ≠ [])
    (hidx : ∀ p ∈ s.getPoints, 0 ≤ p.index ∧
      p.index < (s.getPointNums.length : Int)) :
    (accumulateMat recs s s.getPointNums.length).isSome = true ∧
    (matFromBed recs s = none ↔
      ∃ i < s.getPointNums.length,
        rowSum (makeSymmetric ((accumulateMat recs s s.getPointNums.length).getD
          (fun _ _ => 0))) s.getPointNums.length i = 0) ∧
    (∀ M, matFromBed recs s = some M →
      ∀ i < s.getPointNums.length, rowSum M s.getPointNums.length i ≠ 0) := by
  have hacc : (accumulateMat recs s s.getPointNums.length).isSome = true :=
    accumulateMat_isSome s s.getPointNums.length hidx recs _
  obtain ⟨m0, hm0⟩ := Option.isSome_iff_exists.mp hacc
  have hnums : s.getPointNums ≠ [] := by
    unfold Structure.getPointNums
    simpa using hne
  obtain ⟨mx, hmx⟩ : ∃ mx, s.getPointNums.max? = some mx := by
    rcases h : s.getPointNums.max? with _ | mx
    · exact absurd (List.max?_eq_none_iff.mp h) hnums
    · exact ⟨mx, rfl⟩
  have hassert : mx - s.offset < (s.points.length : Int) :=
    maxnum_lt_of_invariant hinv hmx
  have hM : matFromBed recs s =
      (if (List.range s.getPointNums.length).any
          (fun i => decide (rowSum (makeSymmetric m0) s.getPointNums.length i = 0))
        then none else some (makeSymmetric m0)) := by
    unfold matFromBed
    dsimp only
    rw [hmx]
    dsimp only
    rw [if_pos hassert, hm0]
  have hgetD : (accumulateMat recs s s.getPointNums.length).getD
      (fun _ _ => 0) = m0 := by
    rw [hm0]
    rfl
  refine ⟨hacc, ?_, ?_⟩
  · rw [hM, hgetD]
    by_cases hany : (List.range s.getPointNums.length).any
        (fun i => decide (rowSum (makeSymmetric m0) s.getPointNums.length i = 0)) = true
    · rw [if_pos hany]
      constructor
      · intro _
        obtain ⟨i, hi, hdec⟩ := List.any_eq_true.mp hany
        exact ⟨i, List.mem_range.mp hi, of_decide_eq_true hdec⟩
      · intro _
        rfl
    · rw [if_neg hany]
      constructor
      · intro hcontr
        cases hcontr
      · rw [List.any_eq_true] at hany
        push_neg at hany
        intro ⟨i, hi, hzero⟩
        exact ((hany i (List.mem_range.mpr hi)) (decide_eq_true hzero)).elim
  · intro M hMs i hi
    rw [hM] at hMs
    by_cases hany : (List.range s.getPointNums.length).any
        (fun i => decide (rowSum (makeSymmetric m0) s.getPointNums.length i = 0)) = true
    · rw [if_pos hany] at hMs
      cases hMs
    · rw [if_neg hany] at hMs
      injection hMs with hMs2
      rw [List.any_eq_true] at hany
      push_neg at hany
      intro hzero
      have := hany i (List.mem_range.mpr hi)
      rw [← hMs2] at hzero
      exact absurd (decide_eq_true hzero) this

/-- C9 witness: the hypotheses are satisfiable at a concrete structure. -/
theorem c9_witness :
    (accumulateMat [⟨"chr1", 0, 1000, 5000, 2⟩]
      ⟨[Slot.point ⟨(0, 0, 0), 0, ⟨0, 5000, 1000, "chr1", none⟩, 0⟩,
        Slot.empty, Slot.empty, Slot.empty, Slot.empty,
        Slot.point ⟨(0, 0, 0), 5, ⟨0, 5000, 1000, "chr1", none⟩, 1⟩],
       ⟨0, 5000, 1000, "chr1", none⟩, 0⟩
      (Structure.getPointNums ⟨[Slot.point ⟨(0, 0, 0), 0, ⟨0, 5000, 1000, "chr1", none⟩, 0⟩,
        Slot.empty, Slot.empty, Slot.empty, Slot.empty,
        Slot.point ⟨(0, 0, 0), 5, ⟨0, 5000, 1000, "chr1", none⟩, 1⟩],
       ⟨0, 5000, 1000, "chr1", none⟩, 0⟩).length).isSome = true :=
  (c9_matFromBed_zero_row_abort _ _ (by decide) (by decide) (by decide)).1

/-! Machinery relating indexPoints to the dense re-indexing picture. -/

theorem slotNums_eq_map (l : List Slot) :
    slotNums l = (slotPoints l).map (fun p => p.num) := by
  induction l with
  | nil => rfl
  | cons x xs ih =>
    cases x with
    | empty =>
      simp only [slotNums, slotPoints, List.filterMap_cons] at ih ⊢
      exact ih
    | point p =>
      simp only [slotNums, slotPoints, List.filterMap_cons] at ih ⊢
      simp only [List.map_cons, ih]

theorem getPoints_eq_slotPoints (s : Structure) : s.getPoints = slotPoints s.points := rfl

theorem getPointNums_eq_slotNums (s : Structure) :
    s.getPointNums = slotNums s.points := by
  unfold Structure.getPointNums
  rw [getPoints_eq_slotPoints, slotNums_eq_map]

theorem slotInvariant_iff_listInv (s : Structure) :
    slotInvariant s ↔ listInv s.points s.offset := Iff.rfl

theorem listInv_cons_tail {x : Slot} {l : List Slot} {off : Int}
    (h : listInv (x :: l) off) : listInv l (off + 1) := by
  intro i hi
  have := h (i + 1) (by simp; omega)
  rw [List.get_cons_succ] at this
  have harith : ((i + 1 : Nat) : Int) + off = (i : Int) + (off + 1) := by push_cast; ring
  rw [harith] at this
  exact this

theorem listInv_cons_point {p : Point} {l : List Slot} {off : Int}
    (h : listInv (Slot.point p :: l) off) : p.num = off := by
  have := h 0 (by simp)
  simpa [Slot.okNum] using this

theorem listInv_num_ge {l : List Slot} {off : Int} (h : listInv l off) :
    ∀ n ∈ slotNums l, off ≤ n := by
  induction l generalizing off with
  | nil => intro n hn; cases hn
  | cons x xs ih =>
    intro n hn
    cases x with
    | empty =>
      simp only [slotNums, List.filterMap_cons] at hn
      have := ih (listInv_cons_tail h) n hn
      omega
    | point p =>
      simp only [slotNums, List.filterMap_cons] at hn
      rcases List.mem_cons.mp hn with h2 | h2
      · subst h2
        rw [listInv_cons_point h]
      · have := ih (listInv_cons_tail h) n h2
        omega

theorem enumFrom_snd_mem {α : Type} : ∀ (l : List α) (k : Nat) (pr : Nat × α),
    pr ∈ l.enumFrom k → pr.2 ∈ l := by
  intro l
  induction l with
  | nil => intro k pr h; cases h
  | cons x xs ih =>
    intro k pr h
    rw [List.enumFrom_cons] at h
    rcases List.mem_cons.mp h with h2 | h2
    · subst h2; exact List.mem_cons_self _ _
    · exact List.mem_cons_of_mem _ (ih (k + 1) pr h2)

theorem setIndexAt_cons (x : Slot) (l : List Slot) (t v : Int) (ht : 1 ≤ t) :
    setIndexAt (x :: l) t v = (setIndexAt l (t - 1) v).map (fun l2 => x :: l2) := by
  unfold setIndexAt pyResolve
  by_cases hlt : t < ((x :: l).length : Int)
  · have hlen : ((x :: l).length : Int) = (l.length : Int) + 1 := by simp
    rw [if_pos ⟨by omega, hlt⟩, if_pos (by constructor <;> omega)]
    dsimp only
    have htn : t.toNat = (t - 1).toNat + 1 := by omega
    rw [htn, List.get?_cons_succ]
    cases hget : l.get? (t - 1).toNat with
    | none => rfl
    | some sl =>
      cases sl with
      | empty => rfl
      | point p =>
        simp only [Option.map_some']
        rw [List.set_cons_succ]
  · have hlen : ((x :: l).length : Int) = (l.length : Int) + 1 := by simp
    rw [if_neg (by omega), if_neg (by omega), if_neg (by omega), if_neg (by omega)]
    rfl

theorem indexFold_cons_commute (off : Int) (x : Slot) :
    ∀ (pairs : List (Nat × Int)) (acc : Option (List Slot)),
      (∀ pr ∈ pairs, 1 ≤ pr.2 - off) →
      pairs.foldl (fun acc pr =>
          acc.bind (fun l2 => setIndexAt l2 (pr.2 - off) (pr.1 : Int)))
        (acc.map (fun l2 => x :: l2)) =
      (pairs.foldl (fun acc pr =>
          acc.bind (fun l2 => setIndexAt l2 (pr.2 - (off + 1)) (pr.1 : Int))) acc).map
        (fun l2 => x :: l2) := by
  intro pairs
  induction pairs with
  | nil => intro acc _; rfl
  | cons pr rest ih =>
    intro acc hb
    rw [List.foldl_cons, List.foldl_cons]
    have hstep : (acc.map (fun l2 => x :: l2)).bind
        (fun l2 => setIndexAt l2 (pr.2 - off) (pr.1 : Int)) =
        (acc.bind (fun l2 => setIndexAt l2 (pr.2 - (off + 1)) (pr.1 : Int))).map
          (fun l2 => x :: l2) := by
      cases acc with
      | none => rfl
      | some l2 =>
        show setIndexAt (x :: l2) (pr.2 - off) (pr.1 : Int) =
          (setIndexAt l2 (pr.2 - (off + 1)) (pr.1 : Int)).map (fun l3 => x :: l3)
        rw [setIndexAt_cons x l2 (pr.2 - off) (pr.1 : Int)
          (hb pr (List.mem_cons_self _ _))]
        have harith : pr.2 - off - 1 = pr.2 - (off + 1) := by ring
        rw [harith]
    rw [hstep]
    exact ih _ (fun q hq => hb q (List.mem_cons_of_mem _ hq))

theorem indexFold_go : ∀ (l : List Slot) (off : Int) (r0 : Nat),
    listInv l off →
    ((slotNums l).enumFrom r0).foldl
      (fun acc pr => acc.bind (fun l2 => setIndexAt l2 (pr.2 - off) (pr.1 : Int)))
      (some l) = some (reindexed l (r0 : Int)) := by
  intro l
  induction l with
  | nil =>
    intro off r0 _
    rfl
  | cons x xs ih =>
    intro off r0 hinv
    have htail : listInv xs (off + 1) := listInv_cons_tail hinv
    have hbound : ∀ pr ∈ (slotNums xs).enumFrom r0, 1 ≤ pr.2 - off := by
      intro pr hpr
      have hmem : pr.2 ∈ slotNums xs := enumFrom_snd_mem _ _ _ hpr
      have := listInv_num_ge htail pr.2 hmem
      omega
    cases x with
    | empty =>
      have hnums : slotNums (Slot.empty :: xs) = slotNums xs := by
        simp [slotNums, List.filterMap_cons]
      rw [hnums]
      have hstart : (some (Slot.empty :: xs)) =
          (some xs).map (fun l2 => Slot.empty :: l2) := rfl
      rw [hstart, indexFold_cons_commute off Slot.empty _ _ hbound, ih (off + 1) r0 htail]
      rfl
    | point p =>
      have hnums : slotNums (Slot.point p :: xs) = p.num :: slotNums xs := by
        simp [slotNums, List.filterMap_cons]
      rw [hnums, List.enumFrom_cons, List.foldl_cons]
      have hp : p.num = off := listInv_cons_point hinv
      have hfirst : (some (Slot.point p :: xs)).bind
          (fun l2 => setIndexAt l2 (p.num - off) (r0 : Int)) =
          some (Slot.point { p with index := (r0 : Int) } :: xs) := by
        show setIndexAt (Slot.point p :: xs) (p.num - off) (r0 : Int) = _
        have ht0 : p.num - off = 0 := by omega
        rw [ht0]
        unfold setIndexAt pyResolve
        rw [if_pos (by constructor <;> simp)]
        rfl
      rw [hfirst]
      have hbound2 : ∀ pr ∈ (slotNums xs).enumFrom (r0 + 1), 1 ≤ pr.2 - off := by
        intro pr hpr
        have hmem : pr.2 ∈ slotNums xs := enumFrom_snd_mem _ _ _ hpr
        have := listInv_num_ge htail pr.2 hmem
        omega
      have hstart : (some (Slot.point { p with index := (r0 : Int) } :: xs)) =
          (some xs).map (fun l2 => Slot.point { p with index := (r0 : Int) } :: l2) := rfl
      rw [hstart, indexFold_cons_commute off _ _ _ hbound2, ih (off + 1) (r0 + 1) htail]
      show some (Slot.point { p with index := (r0 : Int) } :: reindexed xs ((r0 + 1 : Nat) : Int)) = _
      have hcast : ((r0 + 1 : Nat) : Int) = (r0 : Int) + 1 := by push_cast; ring
      rw [hcast]
      rfl

/-- Under the slot invariant, indexPoints succeeds and produces exactly the
densely re-indexed slot array. -/
theorem indexPoints_eq_reindexed (s : Structure) (hinv : slotInvariant s) :
    s.indexPoints = some { points := reindexed s.points 0, chrom := s.chrom, offset := s.offset } := by
  unfold Structure.indexPoints
  dsimp only
  rw [getPointNums_eq_slotNums s]
  have henum : (slotNums s.points).enum = (slotNums s.points).enumFrom 0 := rfl
  rw [henum, indexFold_go s.points s.offset 0 ((slotInvariant_iff_listInv s).mp hinv)]
  rfl

theorem reindexed_length : ∀ (l : List Slot) (r : Int),
    (reindexed l r).length = l.length := by
  intro l
  induction l with
  | nil => intro r; rfl
  | cons x xs ih =>
    intro r
    cases x <;> simp [reindexed, ih]

theorem reindexed_slotPoints_indices : ∀ (l : List Slot) (r : Int),
    (slotPoints (reindexed l r)).map (fun p => p.index) =
      (List.range (slotPoints l).length).map (fun n : Nat => ((n : Int) + r)) := by
  intro l
  induction l with
  | nil => intro r; rfl
  | cons x xs ih =>
    intro r
    cases x with
    | empty =>
      simp only [reindexed, slotPoints, List.filterMap_cons] at ih ⊢
      exact ih r
    | point p =>
      simp only [reindexed, slotPoints, List.filterMap_cons, List.length_cons] at ih ⊢
      rw [List.range_succ_eq_map]
      simp only [List.map_cons, List.map_map]
      rw [ih (r + 1)]
      congr 1
      · simp
      · apply List.map_congr_left
        intro n hn
        simp only [Function.comp]
        push_cast
        ring

theorem reindexed_nums : ∀ (l : List Slot) (r : Int),
    slotNums (reindexed l r) = slotNums l := by
  intro l
  induction l with
  | nil => intro r; rfl
  | cons x xs ih =>
    intro r
    cases x with
    | empty =>
      simp only [reindexed, slotNums, List.filterMap_cons] at ih ⊢
      exact ih r
    | point p =>
      simp only [reindexed, slotNums, List.filterMap_cons] at ih ⊢
      rw [ih (r + 1)]

theorem reindexed_positions : ∀ (l : List Slot) (r : Int),
    (slotPoints (reindexed l r)).map (fun p => p.pos) =
      (slotPoints l).map (fun p => p.pos) := by
  intro l
  induction l with
  | nil => intro r; rfl
  | cons x xs ih =>
    intro r
    cases x with
    | empty =>
      simp only [reindexed, slotPoints, List.filterMap_cons] at ih ⊢
      exact ih r
    | point p =>
      simp only [reindexed, slotPoints, List.filterMap_cons] at ih ⊢
      rw [List.map_cons, List.map_cons, ih (r + 1)]

theorem reindexed_listInv : ∀ (l : List Slot) (off r : Int),
    listInv l off → listInv (reindexed l r) off := by
  intro l
  induction l with
  | nil => intro off r h; exact h
  | cons x xs ih =>
    intro off r h i hi
    cases x with
    | empty =>
      cases i with
      | zero => trivial
      | succ j =>
        have hj : j < (reindexed xs r).length := by
          have := hi
          simp [reindexed] at this
          omega
        have := ih (off + 1) r (listInv_cons_tail h) j hj
        show ((Slot.empty :: reindexed xs r).get ⟨j + 1, hi⟩).okNum _
        rw [List.get_cons_succ]
        have harith : ((j + 1 : Nat) : Int) + off = (j : Int) + (off + 1) := by
          push_cast; ring
        rw [harith]
        exact this
    | point p =>
      cases i with
      | zero =>
        show Slot.okNum (Slot.point { p with index := r }) ((0 : Nat) + off)
        have := listInv_cons_point h
        show ({ p with index := r } : Point).num = (0 : Nat) + off
        simpa using this
      | succ j =>
        have hj : j < (reindexed xs (r + 1)).length := by
          have := hi
          simp [reindexed] at this
          omega
        have := ih (off + 1) (r + 1) (listInv_cons_tail h) j hj
        show ((Slot.point _ :: reindexed xs (r + 1)).get ⟨j + 1, hi⟩).okNum _
        rw [List.get_cons_succ]
        have harith : ((j + 1 : Nat) : Int) + off = (j : Int) + (off + 1) := by
          push_cast; ring
        rw [harith]
        exact this

/-! Invariant of the structureFromBed locus scan (start = minPos, offset 0). -/

theorem getPointNum_some_eq {ch : ChromParameters} {g v : Int}
    (h : ch.getPointNum g = some v) :
    v = (g - ch.minPos).fdiv ch.res ∧ ch.minPos ≤ g ∧ g ≤ ch.maxPos := by
  unfold ChromParameters.getPointNum at h
  split at h
  · exact absurd h (by simp)
  · next hcond =>
    push_neg at hcond
    exact ⟨(Option.some.inj h).symm, hcond.1, hcond.2⟩

theorem listInv_replicate (n : Nat) (off : Int) :
    listInv (List.replicate n Slot.empty) off := by
  intro i hi
  rw [List.get_eq_getElem, List.getElem_replicate]
  trivial

theorem pySet_point_inv {l : List Slot} {idx : Int} {p : Point}
    (hidx : 0 ≤ idx) (hnum : p.num = idx) (hinv : listInv l 0) :
    ∀ l2, pySet l idx (Slot.point p) = some l2 → listInv l2 0 := by
  intro l2 h
  unfold pySet pyResolve at h
  by_cases hin : idx < (l.length : Int)
  · rw [if_pos ⟨hidx, hin⟩] at h
    injection h with h2
    subst h2
    intro i hi
    have hlen : i < l.length := by
      have := hi
      rw [List.length_set] at this
      exact this
    rw [List.get_eq_getElem, List.getElem_set]
    by_cases hidx2 : idx.toNat = i
    · rw [if_pos hidx2]
      show p.num = (i : Int) + 0
      omega
    · rw [if_neg hidx2]
      have := hinv i hlen
      rw [List.get_eq_getElem] at this
      exact this
  · rw [if_neg (by omega), if_neg (by omega)] at h
    cases h

theorem structureFromBedStep_inv (ch : ChromParameters) (stop : Int)
    (hres : 0 < ch.res) (l : List Slot) (r : BedRecord) (hinv : listInv l 0) :
    ∀ l2, structureFromBedStep ch ch.minPos stop l r = some l2 → listInv l2 0 := by
  intro l2 h
  unfold structureFromBedStep at h
  split at h
  · next hrange =>
    rcases h1 : ch.getPointNum r.pos1 with _ | p1 <;>
      rcases h2 : ch.getPointNum r.pos2 with _ | p2 <;>
        rw [h1, h2] at h
    · exact (Option.some.inj h) ▸ hinv
    · exact Option.noConfusion h
    · exact Option.noConfusion h
    · dsimp only at h
      split at h
      · obtain ⟨hp1, hg1, _⟩ := getPointNum_some_eq h1
        obtain ⟨hp2, hg2, _⟩ := getPointNum_some_eq h2
        obtain ⟨lmid, hmid, hmid2⟩ := Option.bind_eq_some.mp h
        have hnn1 : 0 ≤ (r.pos1 - ch.minPos).fdiv ch.res :=
          Int.fdiv_nonneg (by omega) hres.le
        have hnn2 : 0 ≤ (r.pos2 - ch.minPos).fdiv ch.res :=
          Int.fdiv_nonneg (by omega) hres.le
        have hinv1 : listInv lmid 0 :=
          pySet_point_inv hnn1 (by rw [hp1]) hinv lmid hmid
        exact pySet_point_inv hnn2 (by rw [hp2]) hinv1 l2 hmid2
      · exact (Option.some.inj h) ▸ hinv
  · exact (Option.some.inj h) ▸ hinv

theorem structureFromBedFold_inv (ch : ChromParameters) (stop : Int)
    (hres : 0 < ch.res) :
    ∀ (recs : List BedRecord) (l : List Slot), listInv l 0 →
      ∀ l2, recs.foldlM (fun l r => structureFromBedStep ch ch.minPos stop l r) l = some l2 →
        listInv l2 0 := by
  intro recs
  induction recs with
  | nil =>
    intro l hinv l2 h
    cases h
    exact hinv
  | cons r rest ih =>
    intro l hinv l2 h
    rw [List.foldlM_cons] at h
    rcases hstep : structureFromBedStep ch ch.minPos stop l r with _ | lmid
    · rw [hstep] at h
      exact Option.noConfusion h
    · rw [hstep] at h
      exact ih lmid (structureFromBedStep_inv ch stop hres l r hinv lmid hstep) l2 h

/-- Characterization of a successful structureFromBed with default start
(minPos) and offset 0: the result is the densely re-indexed scan array and
satisfies the slot invariant. -/
theorem structureFromBed_some_eq {recs : List BedRecord} {ch : ChromParameters}
    {stop : Int} {S : Structure} (hres : 0 < ch.res)
    (h : structureFromBed recs ch ch.minPos stop 0 = some S) :
    ∃ l2, listInv l2 0 ∧
      recs.foldlM (fun l r => structureFromBedStep ch ch.minPos stop l r)
        (List.replicate ((stop - ch.minPos).fdiv ch.res + 1).toNat Slot.empty) = some l2 ∧
      S = { points := reindexed l2 0, chrom := ch, offset := 0 } := by
  unfold structureFromBed at h
  dsimp only at h
  split at h
  · exact Option.noConfusion h
  · obtain ⟨l2, hl2, hidx⟩ := Option.bind_eq_some.mp h
    have hinv : listInv l2 0 :=
      structureFromBedFold_inv ch stop hres recs _ (listInv_replicate _ 0) l2 hl2
    have hip := indexPoints_eq_reindexed ⟨l2, ch, 0⟩ hinv
    rw [hip] at hidx
    exact ⟨l2, hinv, hl2, (Option.some.inj hidx).symm⟩

/-! Machinery for highToLow: bucket fold and emit loop. -/

theorem bucketFold (rr off : Int) :
    ∀ (pts : List Point) (bs : List (List Point)),
      (∀ p ∈ pts, 0 ≤ (p.num - off).fdiv rr ∧ (p.num - off).fdiv rr < (bs.length : Int)) →
      ∃ bs2, pts.foldlM (fun bs p => appendAt bs ((p.num - off).fdiv rr) p) bs = some bs2 ∧
        bs2.length = bs.length ∧
        ∀ j : Nat, ∀ hj : j < bs.length, ∀ hj2 : j < bs2.length,
          bs2.get ⟨j, hj2⟩ = bs.get ⟨j, hj⟩ ++
            pts.filter (fun p => decide ((p.num - off).fdiv rr = (j : Int))) := by
  intro pts
  induction pts with
  | nil =>
    intro bs _
    refine ⟨bs, rfl, rfl, ?_⟩
    intro j hj hj2
    simp [List.filter_nil]
  | cons p rest ih =>
    intro bs hrange
    obtain ⟨hp0, hplt⟩ := hrange p (List.mem_cons_self _ _)
    have hres : pyResolve bs.length ((p.num - off).fdiv rr) =
        some ((p.num - off).fdiv rr).toNat := by
      unfold pyResolve
      rw [if_pos ⟨hp0, hplt⟩]
    have happ : appendAt bs ((p.num - off).fdiv rr) p =
        some (bs.set ((p.num - off).fdiv rr).toNat
          (bs.getD ((p.num - off).fdiv rr).toNat [] ++ [p])) := by
      unfold appendAt
      rw [hres]
      rfl
    have hlen' : (bs.set ((p.num - off).fdiv rr).toNat
        (bs.getD ((p.num - off).fdiv rr).toNat [] ++ [p])).length = bs.length :=
      List.length_set bs _ _
    obtain ⟨bs2, hfold, hlen2, hchar⟩ := ih
      (bs.set ((p.num - off).fdiv rr).toNat
        (bs.getD ((p.num - off).fdiv rr).toNat [] ++ [p]))
      (by
        intro q hq
        rw [hlen']
        exact hrange q (List.mem_cons_of_mem _ hq))
    refine ⟨bs2, ?_, by rw [hlen2, hlen'], ?_⟩
    · rw [List.foldlM_cons, happ]
      exact hfold
    · intro j hj hj2
      have hj' : j < (bs.set ((p.num - off).fdiv rr).toNat
          (bs.getD ((p.num - off).fdiv rr).toNat [] ++ [p])).length := by
        rw [hlen']
        exact hj
      rw [hchar j hj' (by omega), List.filter_cons]
      by_cases hjeq : ((p.num - off).fdiv rr).toNat = j
      · rw [if_pos (decide_eq_true (show (p.num - off).fdiv rr = (j : Int) by omega))]
        have hgetD : bs.getD ((p.num - off).fdiv rr).toNat [] = bs[j] := by
          rw [hjeq, List.getD_eq_getElem?_getD, List.getElem?_eq_getElem hj]
          rfl
        rw [List.get_eq_getElem, List.getElem_set, if_pos hjeq, hgetD]
        simp [List.get_eq_getElem, List.append_assoc]
      · rw [if_neg (by simpa using (show ¬((p.num - off).fdiv rr = (j : Int)) by omega))]
        rw [List.get_eq_getElem, List.getElem_set, if_neg hjeq]
        simp [List.get_eq_getElem]

theorem emit_foldl (lowOff : Int) (ch : ChromParameters) :
    ∀ (bs : List (List Point)) (acc : List Slot) (idx : Int),
      (bs.foldl (fun (st : List Slot × Int) pm =>
          match pm with
          | [] => (st.1 ++ [Slot.empty], st.2)
          | _ :: _ =>
            (st.1 ++ [Slot.point
                { pos := mean3 (pm.map (fun p => p.pos)),
                  num := (st.1.length : Int) + lowOff,
                  chrom := ch,
                  index := st.2 }],
             st.2 + 1))
        (acc, idx)).1 = acc ++ emitBuckets lowOff ch bs acc.length idx := by
  intro bs
  induction bs with
  | nil =>
    intro acc idx
    simp [emitBuckets]
  | cons pm rest ih =>
    intro acc idx
    cases pm with
    | nil =>
      rw [List.foldl_cons]
      show (rest.foldl _ (acc ++ [Slot.empty], idx)).1 = _
      rw [ih (acc ++ [Slot.empty]) idx]
      have he : emitBuckets lowOff ch ([] :: rest) acc.length idx =
          Slot.empty :: emitBuckets lowOff ch rest (acc.length + 1) idx := rfl
      rw [he, List.append_assoc]
      congr 1
      rw [List.length_append]
      rfl
    | cons q qs =>
      rw [List.foldl_cons]
      show (rest.foldl _ (acc ++ [Slot.point
        { pos := mean3 ((q :: qs).map (fun p => p.pos))
          num := (acc.length : Int) + lowOff
          chrom := ch
          index := idx }], idx + 1)).1 = _
      rw [ih (acc ++ [Slot.point
        { pos := mean3 ((q :: qs).map (fun p => p.pos))
          num := (acc.length : Int) + lowOff
          chrom := ch
          index := idx }]) (idx + 1)]
      have he : emitBuckets lowOff ch ((q :: qs) :: rest) acc.length idx =
          Slot.point
            { pos := mean3 ((q :: qs).map (fun p => p.pos))
              num := (acc.length : Int) + lowOff
              chrom := ch
              index := idx } ::
            emitBuckets lowOff ch rest (acc.length + 1) (idx + 1) := rfl
      rw [he, List.append_assoc]
      congr 1
      rw [List.length_append]
      rfl

theorem highToLow_some_eq (hs : Structure) (rr : Int) (hrr : 0 < rr)
    (hinv : slotInvariant hs) :
    ∃ buckets : List (List Point),
      buckets.length = ((hs.points.length : Int).fdiv rr + 1).toNat ∧
      (∀ j : Nat, ∀ hj : j < buckets.length,
        buckets.get ⟨j, hj⟩ =
          hs.getPoints.filter (fun p => decide ((p.num - hs.offset).fdiv rr = (j : Int)))) ∧
      highToLow hs rr = some
        { points := emitBuckets (hs.offset.fdiv rr) (hs.chrom.reduceRes rr) buckets 0
            (hs.offset.fdiv rr),
          chrom := hs.chrom.reduceRes rr,
          offset := hs.offset.fdiv rr } := by
  have hlowN : 0 ≤ (hs.points.length : Int).fdiv rr + 1 := by
    have := Int.fdiv_nonneg (show 0 ≤ (hs.points.length : Int) by omega) hrr.le
    omega
  have hrange : ∀ p ∈ hs.getPoints,
      0 ≤ (p.num - hs.offset).fdiv rr ∧
      (p.num - hs.offset).fdiv rr <
        ((List.replicate ((hs.points.length : Int).fdiv rr + 1).toNat
          ([] : List Point)).length : Int) := by
    intro p hp
    obtain ⟨i, hlt, hslot⟩ := getPoints_exists_slot hp
    have hok := hinv i hlt
    rw [hslot] at hok
    have hnum : p.num = (i : Int) + hs.offset := hok
    have hnum2 : p.num - hs.offset = (i : Int) := by omega
    rw [hnum2]
    constructor
    · exact Int.fdiv_nonneg (by omega) hrr.le
    · rw [List.length_replicate, Int.toNat_of_nonneg hlowN]
      have hmono : (i : Int).fdiv rr ≤ (hs.points.length : Int).fdiv rr :=
        fdiv_le_fdiv_of_le rr hrr (by omega)
      omega
  obtain ⟨bs2, hfold, hlen2, hchar⟩ :=
    bucketFold rr hs.offset hs.getPoints
      (List.replicate ((hs.points.length : Int).fdiv rr + 1).toNat []) hrange
  refine ⟨bs2, by rw [hlen2, List.length_replicate], ?_, ?_⟩
  · intro j hj
    have hj0 : j < (List.replicate ((hs.points.length : Int).fdiv rr + 1).toNat
        ([] : List Point)).length := by
      rw [List.length_replicate]
      rw [hlen2, List.length_replicate] at hj
      exact hj
    rw [hchar j hj0 hj]
    rw [List.get_eq_getElem, List.getElem_replicate]
    rfl
  · unfold highToLow
    dsimp only
    rw [if_neg (by omega), hfold]
    simp only [Option.map_some']
    congr 1
    have := emit_foldl (hs.offset.fdiv rr) (hs.chrom.reduceRes rr) bs2 [] (hs.offset.fdiv rr)
    rw [List.length_nil] at this
    rw [this]
    rfl

theorem emitBuckets_length (lowOff : Int) (ch : ChromParameters) :
    ∀ (bs : List (List Point)) (bpos : Nat) (idx : Int),
      (emitBuckets lowOff ch bs bpos idx).length = bs.length := by
  intro bs
  induction bs with
  | nil => intro bpos idx; rfl
  | cons pm rest ih =>
    intro bpos idx
    cases pm with
    | nil => simp [emitBuckets, ih]
    | cons q qs => simp [emitBuckets, ih]

theorem emitBuckets_get (lowOff : Int) (ch : ChromParameters) :
    ∀ (bs : List (List Point)) (bpos : Nat) (idx : Int) (j : Nat)
      (hj : j < bs.length) (hj2 : j < (emitBuckets lowOff ch bs bpos idx).length),
      (bs.get ⟨j, hj⟩ = [] →
        (emitBuckets lowOff ch bs bpos idx).get ⟨j, hj2⟩ = Slot.empty) ∧
      (bs.get ⟨j, hj⟩ ≠ [] → ∃ ix : Int,
        (emitBuckets lowOff ch bs bpos idx).get ⟨j, hj2⟩ = Slot.point
          { pos := mean3 ((bs.get ⟨j, hj⟩).map (fun p => p.pos))
            num := ((bpos + j : Nat) : Int) + lowOff
            chrom := ch
            index := ix }) := by
  intro bs
  induction bs with
  | nil =>
    intro bpos idx j hj
    exact absurd hj (by simp)
  | cons pm rest ih =>
    intro bpos idx j hj hj2
    cases pm with
    | nil =>
      cases j with
      | zero =>
        constructor
        · intro _
          rfl
        · intro hne
          exact absurd rfl hne
      | succ j' =>
        have he : emitBuckets lowOff ch ([] :: rest) bpos idx =
            Slot.empty :: emitBuckets lowOff ch rest (bpos + 1) idx := rfl
        have hj' : j' < rest.length := by simpa using hj
        have hj2' : j' < (emitBuckets lowOff ch rest (bpos + 1) idx).length := by
          rw [emitBuckets_length]
          exact hj'
        have hrec := ih (bpos + 1) idx j' hj' hj2'
        constructor
        · intro hempty
          rw [List.get_cons_succ] at hempty
          exact hrec.1 hempty
        · intro hne
          rw [List.get_cons_succ] at hne
          obtain ⟨ix, hix⟩ := hrec.2 hne
          refine ⟨ix, ?_⟩
          simp only [show bpos + 1 + j' = bpos + (j' + 1) from by omega] at hix
          exact hix
    | cons q qs =>
      cases j with
      | zero =>
        constructor
        · intro habs
          exact absurd habs (by simp)
        · intro _
          refine ⟨idx, ?_⟩
          have harith : ((bpos + 0 : Nat) : Int) = (bpos : Int) := by omega
          simp only [List.get_cons_zero, harith]
          rfl
      | succ j' =>
        have he : emitBuckets lowOff ch ((q :: qs) :: rest) bpos idx =
            Slot.point
              { pos := mean3 ((q :: qs).map (fun p => p.pos))
                num := (bpos : Int) + lowOff
                chrom := ch
                index := idx } ::
              emitBuckets lowOff ch rest (bpos + 1) (idx + 1) := rfl
        have hj' : j' < rest.length := by simpa using hj
        have hj2' : j' < (emitBuckets lowOff ch rest (bpos + 1) (idx + 1)).length := by
          rw [emitBuckets_length]
          exact hj'
        have hrec := ih (bpos + 1) (idx + 1) j' hj' hj2'
        constructor
        · intro hempty
          rw [List.get_cons_succ] at hempty
          exact hrec.1 hempty
        · intro hne
          rw [List.get_cons_succ] at hne
          obtain ⟨ix, hix⟩ := hrec.2 hne
          refine ⟨ix, ?_⟩
          simp only [show bpos + 1 + j' = bpos + (j' + 1) from by omega] at hix
          exact hix

theorem emitBuckets_indices (lowOff : Int) (ch : ChromParameters) :
    ∀ (bs : List (List Point)) (bpos : Nat) (idx : Int),
      (slotPoints (emitBuckets lowOff ch bs bpos idx)).map (fun p => p.index) =
        (List.range (slotPoints (emitBuckets lowOff ch bs bpos idx)).length).map
          (fun n : Nat => ((n : Int) + idx)) := by
  intro bs
  induction bs with
  | nil => intro bpos idx; rfl
  | cons pm rest ih =>
    intro bpos idx
    cases pm with
    | nil =>
      have he : emitBuckets lowOff ch ([] :: rest) bpos idx =
          Slot.empty :: emitBuckets lowOff ch rest (bpos + 1) idx := rfl
      rw [he]
      simp only [slotPoints, List.filterMap_cons] at ih ⊢
      exact ih (bpos + 1) idx
    | cons q qs =>
      have he : emitBuckets lowOff ch ((q :: qs) :: rest) bpos idx =
          Slot.point
            { pos := mean3 ((q :: qs).map (fun p => p.pos))
              num := (bpos : Int) + lowOff
              chrom := ch
              index := idx } ::
            emitBuckets lowOff ch rest (bpos + 1) (idx + 1) := rfl
      rw [he]
      simp only [slotPoints, List.filterMap_cons, List.length_cons] at ih ⊢
      rw [List.range_succ_eq_map]
      simp only [List.map_cons, List.map_map]
      rw [ih (bpos + 1) (idx + 1)]
      congr 1
      · simp
      · apply List.map_congr_left
        intro n hn
        simp only [Function.comp]
        push_cast
        ring

theorem mean3_singleton (x : ℚ × ℚ × ℚ) : mean3 [x] = x := by
  obtain ⟨a, b, c⟩ := x
  unfold mean3
  norm_num

/-- C4 amended: for a structure satisfying the slot invariant and an
integer ratio above 1, highToLow returns a structure whose slot count is
FLOOR(len(points)/ratio) + 1 (the claim said ceiling), whose offset is the
floor-divided high offset, built over the reduced chromosome; every slot j
is empty when no non-empty high point has (num - highOffset) fdiv ratio
equal to j, and otherwise holds a point whose position is the
coordinate-wise mean of the bucketed points and whose num is j plus the
low offset; a singleton bucket carries its point position unchanged. -/
theorem c4_highToLow_amended (hs : Structure) (rr : Int) (hrr : 1 < rr)
    (hinv : slotInvariant hs) :
    (highToLow hs rr).isSome = true ∧
    ∀ L, highToLow hs rr = some L →
      (L.points.length : Int) = (hs.points.length : Int).fdiv rr + 1 ∧
      L.offset = hs.offset.fdiv rr ∧
      L.chrom = hs.chrom.reduceRes rr ∧
      ∀ j : Nat, ∀ hj : j < L.points.length,
        (hs.getPoints.filter
            (fun p => decide ((p.num - hs.offset).fdiv rr = (j : Int))) = [] →
          L.points.get ⟨j, hj⟩ = Slot.empty) ∧
        (hs.getPoints.filter
            (fun p => decide ((p.num - hs.offset).fdiv rr = (j : Int))) ≠ [] →
          ∃ ix : Int, L.points.get ⟨j, hj⟩ = Slot.point
            { pos := mean3 ((hs.getPoints.filter
                (fun p => decide ((p.num - hs.offset).fdiv rr = (j : Int)))).map
                  (fun p => p.pos))
              num := (j : Int) + hs.offset.fdiv rr
              chrom := hs.chrom.reduceRes rr
              index := ix }) ∧
        (∀ q : Point,
          hs.getPoints.filter
            (fun p => decide ((p.num - hs.offset).fdiv rr = (j : Int))) = [q] →
          ∃ ix : Int, L.points.get ⟨j, hj⟩ = Slot.point
            { pos := q.pos
              num := (j : Int) + hs.offset.fdiv rr
              chrom := hs.chrom.reduceRes rr
              index := ix }) := by
  obtain ⟨buckets, hblen, hbchar, hsome⟩ := highToLow_some_eq hs rr (by omega) hinv
  have hlowN : 0 ≤ (hs.points.length : Int).fdiv rr + 1 := by
    have := Int.fdiv_nonneg (show 0 ≤ (hs.points.length : Int) by omega) (by omega : (0:Int) ≤ rr)
    omega
  constructor
  · rw [hsome]
    rfl
  · intro L hL
    rw [hsome] at hL
    obtain rfl : _ = L := Option.some.inj hL
    refine ⟨?_, rfl, rfl, ?_⟩
    · show ((emitBuckets _ _ buckets 0 _).length : Int) = _
      rw [emitBuckets_length, hblen, Int.toNat_of_nonneg hlowN]
    · intro j hj
      have hjb : j < buckets.length := by
        rw [← emitBuckets_length (hs.offset.fdiv rr) (hs.chrom.reduceRes rr)
          buckets 0 (hs.offset.fdiv rr)]
        exact hj
      have hget := emitBuckets_get (hs.offset.fdiv rr) (hs.chrom.reduceRes rr)
        buckets 0 (hs.offset.fdiv rr) j hjb hj
      rw [hbchar j hjb] at hget
      refine ⟨?_, ?_, ?_⟩
      · intro hfe
        exact hget.1 hfe
      · intro hne
        obtain ⟨ix, hix⟩ := hget.2 hne
        refine ⟨ix, ?_⟩
        rw [hix]
        have harith : ((0 + j : Nat) : Int) = (j : Int) := by omega
        rw [harith]
      · intro q hq
        have hne : hs.getPoints.filter
            (fun p => decide ((p.num - hs.offset).fdiv rr = (j : Int))) ≠ [] := by
          rw [hq]
          exact List.cons_ne_nil q []
        obtain ⟨ix, hix⟩ := hget.2 hne
        refine ⟨ix, ?_⟩
        rw [hix, hq]
        have harith : ((0 + j : Nat) : Int) = (j : Int) := by omega
        rw [harith]
        have hmean : mean3 ([q].map (fun p => p.pos)) = q.pos := by
          rw [List.map_singleton]
          exact mean3_singleton q.pos
        rw [hmean]

/-- C4 counterexample: a five-slot structure and ratio 2 give a low
structure with 3 slots, while the claimed ceiling formula demands 4. -/
theorem c4_counterexample :
    (highToLow ⟨List.replicate 5 Slot.empty, ⟨0, 4000, 1000, "chr1", none⟩, 0⟩ 2).map
      (fun L => L.points.length) = some 3 ∧ (3 : Int) ≠ ceilDiv 5 2 + 1 := by
  exact ⟨by decide, by decide⟩

/-- C4 witness: a one-point structure with offset 2 and ratio 2. -/
theorem c4_witness :
    (highToLow ⟨[Slot.point ⟨(1, 2, 3), 2, ⟨0, 4000, 1000, "chr1", none⟩, 0⟩],
      ⟨0, 4000, 1000, "chr1", none⟩, 2⟩ 2).isSome = true :=
  (c4_highToLow_amended ⟨[Slot.point ⟨(1, 2, 3), 2, ⟨0, 4000, 1000, "chr1", none⟩, 0⟩],
    ⟨0, 4000, 1000, "chr1", none⟩, 2⟩ 2 (by decide) (by decide)).1

/-- C10 corrected: after indexPoints on any structure satisfying the slot
invariant (any offset) the indices of the non-empty points form 0..k-1 in
slot order, and the same holds for structureFromBed with default start and
offset 0; highToLow instead assigns the dense sequence STARTING AT ITS LOW
OFFSET (offset fdiv ratio), so its indices are 0..k-1 only when that
offset is 0. -/
theorem c10_reindex_dense :
    (∀ s : Structure, slotInvariant s →
      (s.indexPoints).map nonEmptyIndices =
        some ((List.range s.getPoints.length).map (fun n : Nat => (n : Int)))) ∧
    (∀ (recs : List BedRecord) (ch : ChromParameters) (stop : Int) (S : Structure),
      0 < ch.res → structureFromBed recs ch ch.minPos stop 0 = some S →
      nonEmptyIndices S =
        (List.range S.getPoints.length).map (fun n : Nat => (n : Int))) ∧
    (∀ (hs : Structure) (rr : Int), 1 < rr → slotInvariant hs →
      ∀ L, highToLow hs rr = some L →
        nonEmptyIndices L =
          (List.range L.getPoints.length).map (fun n : Nat => ((n : Int) + L.offset))) := by
  have hbase : ∀ (l : List Slot),
      (slotPoints (reindexed l 0)).map (fun p => p.index) =
        (List.range (slotPoints (reindexed l 0)).length).map (fun n : Nat => (n : Int)) := by
    intro l
    have hlen : (slotPoints (reindexed l 0)).length = (slotPoints l).length := by
      have := congrArg List.length (reindexed_positions l 0)
      simpa using this
    rw [reindexed_slotPoints_indices l 0, hlen]
    apply List.map_congr_left
    intro n _
    omega
  refine ⟨?_, ?_, ?_⟩
  · intro s hinv
    rw [indexPoints_eq_reindexed s hinv]
    simp only [Option.map_some']
    congr 1
    have hlen : (slotPoints (reindexed s.points 0)).length = (slotPoints s.points).length := by
      have := congrArg List.length (reindexed_positions s.points 0)
      simpa using this
    show (slotPoints (reindexed s.points 0)).map (fun p => p.index) = _
    rw [hbase s.points, hlen]
    rfl
  · intro recs ch stop S hres hS
    obtain ⟨l2, hinv2, _, hSeq⟩ := structureFromBed_some_eq hres hS
    subst hSeq
    exact hbase l2
  · intro hs rr hrr hinv L hL
    obtain ⟨buckets, _, _, hsome⟩ := highToLow_some_eq hs rr (by omega) hinv
    rw [hsome] at hL
    obtain rfl : _ = L := Option.some.inj hL
    exact emitBuckets_indices (hs.offset.fdiv rr) (hs.chrom.reduceRes rr) buckets 0
      (hs.offset.fdiv rr)

section
attribute [local semireducible] Rat.add Rat.mul Rat.sub Rat.inv

set_option maxRecDepth 10000 in
/-- C10 counterexample: a one-point structure with offset 2 reduced by
ratio 2 has low offset 1, and highToLow starts its running index there:
the resulting index list is [1], not the claimed dense [0]. -/
theorem c10_counterexample :
    (highToLow ⟨[Slot.point ⟨(1, 2, 3), 2, ⟨0, 4000, 1000, "chr1", none⟩, 0⟩],
        ⟨0, 4000, 1000, "chr1", none⟩, 2⟩ 2).map nonEmptyIndices =
      some [1] ∧ ([(1 : Int)] ≠ [(0 : Int)]) := by
  exact ⟨by decide, by decide⟩

set_option maxRecDepth 10000 in
/-- C10 witness instantiating all three conjuncts at concrete inputs. -/
theorem c10_witness :
    ((Structure.indexPoints ⟨[Slot.point ⟨(0, 0, 0), 0, ⟨0, 1000, 1000, "chr1", none⟩, 9⟩],
        ⟨0, 1000, 1000, "chr1", none⟩, 0⟩).map nonEmptyIndices =
      some ((List.range (Structure.getPoints ⟨[Slot.point ⟨(0, 0, 0), 0,
        ⟨0, 1000, 1000, "chr1", none⟩, 9⟩], ⟨0, 1000, 1000, "chr1", none⟩, 0⟩).length).map
          (fun n : Nat => (n : Int)))) ∧
    (nonEmptyIndices ⟨[Slot.point ⟨(0, 0, 0), 0, ⟨1000, 5000, 1000, "chr1", some 0⟩, 0⟩,
        Slot.empty, Slot.empty, Slot.empty,
        Slot.point ⟨(0, 0, 0), 4, ⟨1000, 5000, 1000, "chr1", some 0⟩, 1⟩],
        ⟨1000, 5000, 1000, "chr1", some 0⟩, 0⟩ =
      (List.range (Structure.getPoints ⟨[Slot.point ⟨(0, 0, 0), 0,
        ⟨1000, 5000, 1000, "chr1", some 0⟩, 0⟩, Slot.empty, Slot.empty, Slot.empty,
        Slot.point ⟨(0, 0, 0), 4, ⟨1000, 5000, 1000, "chr1", some 0⟩, 1⟩],
        ⟨1000, 5000, 1000, "chr1", some 0⟩, 0⟩).length).map (fun n : Nat => (n : Int))) ∧
    (nonEmptyIndices ⟨[Slot.point ⟨(1, 2, 3), 1, ⟨0, 4000, 2000, "chr1", none⟩, 1⟩],
        ⟨0, 4000, 2000, "chr1", none⟩, 1⟩ =
      (List.range (Structure.getPoints ⟨[Slot.point ⟨(1, 2, 3), 1,
        ⟨0, 4000, 2000, "chr1", none⟩, 1⟩], ⟨0, 4000, 2000, "chr1", none⟩, 1⟩).length).map
          (fun n : Nat => ((n : Int) +
            (Structure.offset ⟨[Slot.point ⟨(1, 2, 3), 1, ⟨0, 4000, 2000, "chr1", none⟩, 1⟩],
              ⟨0, 4000, 2000, "chr1", none⟩, 1⟩)))) := by
  refine ⟨c10_reindex_dense.1 _ (by decide), ?_, ?_⟩
  · exact c10_reindex_dense.2.1 [⟨"chr1", 1000, 2000, 5000, 3⟩]
      ⟨1000, 5000, 1000, "chr1", some 0⟩ 5000 _ (by decide) (by decide)
  · exact c10_reindex_dense.2.2
      ⟨[Slot.point ⟨(1, 2, 3), 2, ⟨0, 4000, 1000, "chr1", none⟩, 0⟩],
        ⟨0, 4000, 1000, "chr1", none⟩, 2⟩ 2 (by decide) (by decide) _ (by decide)

end

/-! Machinery for the serialization round trip. -/

theorem write_lines_enum (off : Int) :
    ∀ (l : List Slot) (k : Nat),
      (l.enumFrom k).map (fun pr =>
        ((pr.1 : Int) + off,
         match pr.2 with
         | Slot.empty => none
         | Slot.point p => some p.pos)) = writeLines l ((k : Int) + off) := by
  intro l
  induction l with
  | nil => intro k; rfl
  | cons x xs ih =>
    intro k
    rw [List.enumFrom_cons, List.map_cons, ih (k + 1)]
    have harith : ((k + 1 : Nat) : Int) + off = (k : Int) + off + 1 := by push_cast; ring
    rw [harith]
    cases x with
    | empty => rfl
    | point p => rfl

theorem write_lines_eq (s : Structure) :
    (Structure.write s).lines = writeLines s.points s.offset := by
  show (s.points.enum).map _ = _
  have h := write_lines_enum s.offset s.points 0
  rw [show ((0 : Nat) : Int) + s.offset = s.offset by ring] at h
  exact h

theorem read_foldl (ch : ChromParameters) :
    ∀ (lines : List (Int × Option (ℚ × ℚ × ℚ))) (acc : List Slot) (idx : Int),
      (lines.foldl (fun (st : List Slot × Int) ln =>
          match ln.2 with
          | none => (st.1 ++ [Slot.empty], st.2)
          | some pos =>
            (st.1 ++ [Slot.point { pos := pos, num := ln.1, chrom := ch, index := st.2 }],
             st.2 + 1))
        (acc, idx)).1 = acc ++ readSlots ch lines idx := by
  intro lines
  induction lines with
  | nil =>
    intro acc idx
    simp [readSlots]
  | cons ln rest ih =>
    intro acc idx
    obtain ⟨n, op⟩ := ln
    cases op with
    | none =>
      rw [List.foldl_cons]
      show (rest.foldl _ (acc ++ [Slot.empty], idx)).1 = _
      rw [ih (acc ++ [Slot.empty]) idx]
      have he : readSlots ch ((n, none) :: rest) idx =
          Slot.empty :: readSlots ch rest idx := rfl
      rw [he, List.append_assoc]
      rfl
    | some pos =>
      rw [List.foldl_cons]
      show (rest.foldl _ (acc ++
        [Slot.point { pos := pos, num := n, chrom := ch, index := idx }], idx + 1)).1 = _
      rw [ih (acc ++ [Slot.point { pos := pos, num := n, chrom := ch, index := idx }]) (idx + 1)]
      have he : readSlots ch ((n, some pos) :: rest) idx =
          Slot.point { pos := pos, num := n, chrom := ch, index := idx } ::
            readSlots ch rest (idx + 1) := rfl
      rw [he, List.append_assoc]
      rfl

theorem structure_from_file_eq (f : SerializedFile)
    (lastLine : Int × Option (ℚ × ℚ × ℚ)) (ch : ChromParameters)
    (hch : ch = ⟨f.minPos, f.minPos + f.res * lastLine.1, f.res, f.name, none⟩)
    (hlast : f.lines.getLast? = some lastLine) :
    structure_from_file f = some ⟨readSlots ch f.lines 0, ch, 0⟩ := by
  subst hch
  unfold structure_from_file
  rw [hlast]
  dsimp only
  congr 2
  exact read_foldl _ f.lines [] 0

theorem readSlots_positions (ch : ChromParameters) :
    ∀ (lines : List (Int × Option (ℚ × ℚ × ℚ))) (idx : Int),
      (slotPoints (readSlots ch lines idx)).map (fun p => p.pos) =
        lines.filterMap (fun ln => ln.2) := by
  intro lines
  induction lines with
  | nil => intro idx; rfl
  | cons ln rest ih =>
    intro idx
    obtain ⟨n, op⟩ := ln
    cases op with
    | none =>
      show (slotPoints (Slot.empty :: readSlots ch rest idx)).map _ = _
      simp only [slotPoints, List.filterMap_cons] at ih ⊢
      exact ih idx
    | some pos =>
      show (slotPoints (Slot.point _ :: readSlots ch rest (idx + 1))).map _ = _
      simp only [slotPoints, List.filterMap_cons, List.map_cons] at ih ⊢
      rw [ih (idx + 1)]

theorem readSlots_emptiness (ch : ChromParameters) :
    ∀ (lines : List (Int × Option (ℚ × ℚ × ℚ))) (idx : Int),
      (readSlots ch lines idx).map slotIsEmpty = lines.map (fun ln => ln.2.isNone) := by
  intro lines
  induction lines with
  | nil => intro idx; rfl
  | cons ln rest ih =>
    intro idx
    obtain ⟨n, op⟩ := ln
    cases op with
    | none =>
      show (Slot.empty :: readSlots ch rest idx).map _ = _
      rw [List.map_cons, List.map_cons, ih idx]
      rfl
    | some pos =>
      show (Slot.point _ :: readSlots ch rest (idx + 1)).map _ = _
      rw [List.map_cons, List.map_cons, ih (idx + 1)]
      rfl

theorem writeLines_positions :
    ∀ (l : List Slot) (n : Int),
      (writeLines l n).filterMap (fun ln => ln.2) =
        (slotPoints l).map (fun p => p.pos) := by
  intro l
  induction l with
  | nil => intro n; rfl
  | cons x xs ih =>
    intro n
    cases x with
    | empty =>
      show ((n, none) :: writeLines xs (n + 1)).filterMap _ = _
      simp only [slotPoints, List.filterMap_cons] at ih ⊢
      exact ih (n + 1)
    | point p =>
      show ((n, some p.pos) :: writeLines xs (n + 1)).filterMap _ = _
      simp only [slotPoints, List.filterMap_cons, List.map_cons] at ih ⊢
      rw [ih (n + 1)]

theorem writeLines_emptiness :
    ∀ (l : List Slot) (n : Int),
      (writeLines l n).map (fun ln => ln.2.isNone) = l.map slotIsEmpty := by
  intro l
  induction l with
  | nil => intro n; rfl
  | cons x xs ih =>
    intro n
    cases x with
    | empty =>
      show ((n, none) :: writeLines xs (n + 1)).map _ = _
      rw [List.map_cons, List.map_cons, ih (n + 1)]
      rfl
    | point p =>
      show ((n, some p.pos) :: writeLines xs (n + 1)).map _ = _
      rw [List.map_cons, List.map_cons, ih (n + 1)]
      rfl

theorem writeLines_length : ∀ (l : List Slot) (n : Int),
    (writeLines l n).length = l.length := by
  intro l
  induction l with
  | nil => intro n; rfl
  | cons x xs ih =>
    intro n
    cases x with
    | empty => simp [writeLines, ih]
    | point p => simp [writeLines, ih]

theorem writeLines_getLast? :
    ∀ (l : List Slot) (n : Int), l ≠ [] →
      ∃ op, (writeLines l n).getLast? = some (n + (l.length : Int) - 1, op) := by
  intro l
  induction l with
  | nil => intro n h; exact absurd rfl h
  | cons x xs ih =>
    intro n _
    cases hxs : xs with
    | nil =>
      subst hxs
      cases x with
      | empty =>
        refine ⟨none, ?_⟩
        show some (n, none) = _
        congr 2
        simp
      | point p =>
        refine ⟨some p.pos, ?_⟩
        show some (n, some p.pos) = _
        congr 2
        simp
    | cons y ys =>
      subst hxs
      obtain ⟨op, hop⟩ := ih (n + 1) (List.cons_ne_nil _ _)
      refine ⟨op, ?_⟩
      have hstep : ∀ pr : Int × Option (ℚ × ℚ × ℚ),
          (pr :: writeLines (y :: ys) (n + 1)).getLast? =
            (writeLines (y :: ys) (n + 1)).getLast? := by
        intro pr
        cases y with
        | empty => exact List.getLast?_cons_cons
        | point q => exact List.getLast?_cons_cons
      cases x with
      | empty =>
        show ((n, none) :: writeLines (y :: ys) (n + 1)).getLast? = _
        rw [hstep, hop]
        congr 2
        push_cast [List.length_cons]
        ring
      | point p =>
        show ((n, some p.pos) :: writeLines (y :: ys) (n + 1)).getLast? = _
        rw [hstep, hop]
        congr 2
        push_cast [List.length_cons]
        ring

/-- C6 amended: for a structure with AT LEAST ONE SLOT, writing and
reading back reproduces the chromosome name, resolution and minPos, the
list of non-empty point positions in slot order, and the emptiness
pattern; the read maxPos is minPos + res times the point number on the
last data line, which is offset + slots - 1.  On a structure with no
slots the read fails (the num variable is never bound), see the
counterexample. -/
theorem c6_roundtrip_amended (s : Structure) (hne : s.points ≠ []) :
    (structure_from_file (Structure.write s)).map (fun t => t.chrom.name) =
      some s.chrom.name ∧
    (structure_from_file (Structure.write s)).map (fun t => t.chrom.res) =
      some s.chrom.res ∧
    (structure_from_file (Structure.write s)).map (fun t => t.chrom.minPos) =
      some s.chrom.minPos ∧
    (structure_from_file (Structure.write s)).map nonEmptyPositions =
      some (nonEmptyPositions s) ∧
    (structure_from_file (Structure.write s)).map (fun t => t.points.map slotIsEmpty) =
      some (s.points.map slotIsEmpty) ∧
    (structure_from_file (Structure.write s)).map (fun t => t.chrom.maxPos) =
      some (s.chrom.minPos + s.chrom.res *
        (((Structure.write s).lines.getLastD (0, none)).1)) ∧
    ((Structure.write s).lines.getLastD (0, none)).1 =
      s.offset + (s.points.length : Int) - 1 := by
  have hlines : (Structure.write s).lines = writeLines s.points s.offset :=
    write_lines_eq s
  obtain ⟨op, hlast0⟩ := writeLines_getLast? s.points s.offset hne
  have hlast : (Structure.write s).lines.getLast? =
      some (s.offset + (s.points.length : Int) - 1, op) := by
    rw [hlines]
    exact hlast0
  have hlastD : ((Structure.write s).lines.getLastD (0, none)) =
      (s.offset + (s.points.length : Int) - 1, op) := by
    rw [List.getLastD_eq_getLast?, hlast]
    rfl
  have hread := structure_from_file_eq (Structure.write s)
    (s.offset + (s.points.length : Int) - 1, op)
    ⟨(Structure.write s).minPos,
     (Structure.write s).minPos + (Structure.write s).res *
       (s.offset + (s.points.length : Int) - 1),
     (Structure.write s).res, (Structure.write s).name, none⟩ rfl hlast
  rw [hread]
  have hwname : (Structure.write s).name = s.chrom.name := rfl
  have hwres : (Structure.write s).res = s.chrom.res := rfl
  have hwmin : (Structure.write s).minPos = s.chrom.minPos := rfl
  refine ⟨?_, ?_, ?_, ?_, ?_, ?_, ?_⟩
  · simp only [Option.map_some']
    rw [hwname]
  · simp only [Option.map_some']
    rw [hwres]
  · simp only [Option.map_some']
    rw [hwmin]
  · simp only [Option.map_some']
    congr 1
    show (slotPoints (readSlots _ (Structure.write s).lines 0)).map (fun p => p.pos) = _
    rw [readSlots_positions, hlines, writeLines_positions]
    rfl
  · simp only [Option.map_some']
    congr 1
    show (readSlots _ (Structure.write s).lines 0).map slotIsEmpty = _
    rw [readSlots_emptiness, hlines, writeLines_emptiness]
  · simp only [Option.map_some']
    rw [hlastD, hwres, hwmin]
  · rw [hlastD]

/-- C6 counterexample: a structure with no slots writes a header-only
file, and reading it back fails (NameError on the unbound num), so the
claimed round trip does not hold for every Structure. -/
theorem c6_counterexample :
    structure_from_file (Structure.write ⟨[], ⟨0, 1000, 1000, "chr1", none⟩, 0⟩) =
      none := by
  decide

/-- C6 witness: a concrete two-point structure with a gap and offset 7
round-trips all the listed data. -/
theorem c6_witness :
    (structure_from_file (Structure.write ⟨[Slot.point ⟨(1, 2, 3), 7,
        ⟨0, 2000, 1000, "chr1", some 2⟩, 0⟩, Slot.empty,
        Slot.point ⟨(4, 5, 6), 9, ⟨0, 2000, 1000, "chr1", some 2⟩, 1⟩],
        ⟨0, 2000, 1000, "chr1", some 2⟩, 7⟩)).map nonEmptyPositions =
      some (nonEmptyPositions ⟨[Slot.point ⟨(1, 2, 3), 7,
        ⟨0, 2000, 1000, "chr1", some 2⟩, 0⟩, Slot.empty,
        Slot.point ⟨(4, 5, 6), 9, ⟨0, 2000, 1000, "chr1", some 2⟩, 1⟩],
        ⟨0, 2000, 1000, "chr1", some 2⟩, 7⟩) :=
  (c6_roundtrip_amended ⟨[Slot.point ⟨(1, 2, 3), 7,
    ⟨0, 2000, 1000, "chr1", some 2⟩, 0⟩, Slot.empty,
    Slot.point ⟨(4, 5, 6), 9, ⟨0, 2000, 1000, "chr1", some 2⟩, 1⟩],
    ⟨0, 2000, 1000, "chr1", some 2⟩, 7⟩ (by decide)).2.2.2.1

theorem listInv_cons_intro {x : Slot} {l : List Slot} {off : Int}
    (hx : x.okNum off) (hl : listInv l (off + 1)) : listInv (x :: l) off := by
  intro i hi
  cases i with
  | zero =>
    show x.okNum (((0 : Nat) : Int) + off)
    have : ((0 : Nat) : Int) + off = off := by omega
    rw [this]
    exact hx
  | succ j =>
    have hj : j < l.length := by simpa using hi
    have := hl j hj
    show ((x :: l).get ⟨j + 1, hi⟩).okNum _
    rw [List.get_cons_succ]
    have harith : ((j + 1 : Nat) : Int) + off = (j : Int) + (off + 1) := by
      push_cast
      ring
    rw [harith]
    exact this

theorem readSlots_writeLines_listInv (ch : ChromParameters) :
    ∀ (l : List Slot) (n idx : Int),
      listInv (readSlots ch (writeLines l n) idx) n := by
  intro l
  induction l with
  | nil =>
    intro n idx i hi
    exact absurd hi (by simp [writeLines, readSlots])
  | cons x xs ih =>
    intro n idx
    cases x with
    | empty =>
      show listInv (readSlots ch ((n, none) :: writeLines xs (n + 1)) idx) n
      have he : readSlots ch ((n, none) :: writeLines xs (n + 1)) idx =
          Slot.empty :: readSlots ch (writeLines xs (n + 1)) idx := rfl
      rw [he]
      exact listInv_cons_intro trivial (ih (n + 1) idx)
    | point p =>
      show listInv (readSlots ch ((n, some p.pos) :: writeLines xs (n + 1)) idx) n
      have he : readSlots ch ((n, some p.pos) :: writeLines xs (n + 1)) idx =
          Slot.point { pos := p.pos, num := n, chrom := ch, index := idx } ::
            readSlots ch (writeLines xs (n + 1)) (idx + 1) := rfl
      rw [he]
      exact listInv_cons_intro rfl (ih (n + 1) (idx + 1))

theorem setstructures_points_fold_inv :
    ∀ (slots : List Slot) (l : List Slot), listInv l 0 →
      (∀ q : Point, Slot.point q ∈ slots → 0 ≤ q.num) →
      ∀ l2, slots.foldlM (fun (l2 : List Slot) (sl : Slot) =>
          match sl with
          | Slot.empty => some l2
          | Slot.point p => pySet l2 p.num (Slot.point p)) l = some l2 →
        listInv l2 0 := by
  intro slots
  induction slots with
  | nil =>
    intro l hinv _ l2 h
    cases h
    exact hinv
  | cons sl rest ih =>
    intro l hinv hnum l2 h
    rw [List.foldlM_cons] at h
    cases sl with
    | empty =>
      exact ih l hinv (fun q hq => hnum q (List.mem_cons_of_mem _ hq)) l2 h
    | point p =>
      dsimp only at h
      rcases hset : pySet l p.num (Slot.point p) with _ | lmid
      · rw [hset] at h
        exact Option.noConfusion h
      · rw [hset] at h
        have hmid : listInv lmid 0 :=
          pySet_point_inv (hnum p (List.mem_cons_self _ _)) rfl hinv lmid hset
        exact ih lmid hmid (fun q hq => hnum q (List.mem_cons_of_mem _ hq)) l2 h

theorem setstructures_children_fold_inv :
    ∀ (children : List Structure) (l : List Slot), listInv l 0 →
      (∀ c ∈ children, ∀ p ∈ c.getPoints, 0 ≤ p.num) →
      ∀ l2, children.foldlM (fun (l : List Slot) (c : Structure) =>
          c.points.foldlM (fun (l2 : List Slot) (sl : Slot) =>
            match sl with
            | Slot.empty => some l2
            | Slot.point p => pySet l2 p.num (Slot.point p)) l) l = some l2 →
        listInv l2 0 := by
  intro children
  induction children with
  | nil =>
    intro l hinv _ l2 h
    cases h
    exact hinv
  | cons c rest ih =>
    intro l hinv hnum l2 h
    rw [List.foldlM_cons] at h
    rcases hc : c.points.foldlM (fun (l2 : List Slot) (sl : Slot) =>
        match sl with
        | Slot.empty => some l2
        | Slot.point p => pySet l2 p.num (Slot.point p)) l with _ | lmid
    · rw [hc] at h
      exact Option.noConfusion h
    · rw [hc] at h
      have hcnum : ∀ q : Point, Slot.point q ∈ c.points → 0 ≤ q.num := by
        intro q hq
        exact hnum c (List.mem_cons_self _ _) q (mem_getPoints_of_mem_points hq)
      have hmid : listInv lmid 0 :=
        setstructures_points_fold_inv c.points l hinv hcnum lmid hc
      exact ih lmid hmid (fun c2 hc2 => hnum c2 (List.mem_cons_of_mem _ hc2)) l2 h

/-- C5 amended: the slot invariant (slot i empty or holding point number
i + offset) holds for structureFromBed with its default start (minPos) and
offset 0, for structure_from_file reading back the write of an OFFSET-0
structure, and for setstructures on an OFFSET-0 parent with children whose
point numbers are non-negative; it fails for nonzero offsets, see the
counterexample. -/
theorem c5_slot_invariant_amended :
    (∀ (recs : List BedRecord) (ch : ChromParameters) (stop : Int) (S : Structure),
      0 < ch.res → structureFromBed recs ch ch.minPos stop 0 = some S →
        slotInvariant S) ∧
    (∀ (s T : Structure), s.offset = 0 →
      structure_from_file (Structure.write s) = some T → slotInvariant T) ∧
    (∀ (parent : Structure) (children : List Structure) (P : Structure),
      parent.offset = 0 →
      (∀ c ∈ children, ∀ p ∈ c.getPoints, 0 ≤ p.num) →
      setstructures parent children = some P → slotInvariant P) := by
  refine ⟨?_, ?_, ?_⟩
  · intro recs ch stop S hres hS
    obtain ⟨l2, hinv2, _, hSeq⟩ := structureFromBed_some_eq hres hS
    subst hSeq
    exact reindexed_listInv l2 0 0 hinv2
  · intro s T hoff hT
    rcases hlast : (Structure.write s).lines.getLast? with _ | lastLine
    · unfold structure_from_file at hT
      rw [hlast] at hT
      exact Option.noConfusion hT
    · rw [structure_from_file_eq (Structure.write s) lastLine _ rfl hlast] at hT
      obtain rfl : _ = T := Option.some.inj hT
      show listInv (readSlots _ (Structure.write s).lines 0) 0
      rw [write_lines_eq s, hoff]
      exact readSlots_writeLines_listInv _ s.points 0 0
  · intro parent children P hoff hnum hP
    unfold setstructures at hP
    obtain ⟨ms, _, hP2⟩ := Option.bind_eq_some.mp hP
    split at hP2
    · exact Option.noConfusion hP2
    · split at hP2
      · exact Option.noConfusion hP2
      · obtain ⟨l2, hl2, hP3⟩ := Option.map_eq_some'.mp hP2
        obtain rfl : _ = P := Option.some.inj (congrArg some hP3)
        show listInv l2 parent.offset
        rw [hoff]
        exact setstructures_children_fold_inv children _
          (listInv_replicate _ 0) hnum l2 hl2

/-- C5 counterexample: with offset 1 (and default start), structureFromBed
returns a structure violating the invariant (slot 0 holds point number 0,
not 0 + 1, because the re-indexing write at points[-1] wraps to the last
slot instead of raising); and reading back the write of an offset-7
structure yields offset 0 with the original point numbers, violating the
invariant as well. -/
theorem c5_counterexample :
    (structureFromBed [⟨"c", 0, 1000, 1000, 1⟩, ⟨"c", 1000, 2000, 2000, 1⟩]
        ⟨0, 2000, 1000, "c", some 2⟩ 0 2000 1).map
      (fun S => decide (slotInvariant S)) = some false ∧
    (structure_from_file (Structure.write
        ⟨[Slot.point ⟨(1, 2, 3), 7, ⟨0, 2000, 1000, "c", some 2⟩, 0⟩],
         ⟨0, 2000, 1000, "c", some 2⟩, 7⟩)).map
      (fun T => decide (slotInvariant T)) = some false := by
  exact ⟨by decide, by decide⟩

/-- C5 witness instantiating the three amended constructors. -/
theorem c5_witness :
    slotInvariant (⟨[Slot.point ⟨(0, 0, 0), 0, ⟨1000, 5000, 1000, "chr1", some 0⟩, 0⟩,
      Slot.empty, Slot.empty, Slot.empty,
      Slot.point ⟨(0, 0, 0), 4, ⟨1000, 5000, 1000, "chr1", some 0⟩, 1⟩],
      ⟨1000, 5000, 1000, "chr1", some 0⟩, 0⟩ : Structure) ∧
    slotInvariant (⟨[Slot.point ⟨(1, 2, 3), 0, ⟨0, 0, 1000, "chr1", none⟩, 0⟩],
      ⟨0, 0, 1000, "chr1", none⟩, 0⟩ : Structure) ∧
    slotInvariant (⟨[Slot.empty, Slot.point ⟨(3, 0, 0), 1, ⟨0, 5000, 1000, "c", none⟩, 0⟩],
      ⟨0, 5000, 1000, "c", none⟩, 0⟩ : Structure) :=
  ⟨c5_slot_invariant_amended.1 [⟨"chr1", 1000, 2000, 5000, 3⟩]
      ⟨1000, 5000, 1000, "chr1", some 0⟩ 5000 _ (by decide) (by decide),
   c5_slot_invariant_amended.2.1
      ⟨[Slot.point ⟨(1, 2, 3), 0, ⟨0, 2000, 1000, "chr1", none⟩, 0⟩],
       ⟨0, 2000, 1000, "chr1", none⟩, 0⟩ _ rfl (by decide),
   c5_slot_invariant_amended.2.2 ⟨[], ⟨0, 5000, 1000, "c", none⟩, 0⟩
      [⟨[Slot.empty, Slot.point ⟨(3, 0, 0), 1, ⟨0, 5000, 1000, "c", none⟩, 0⟩],
        ⟨0, 5000, 1000, "c", none⟩, 0⟩] _ rfl (by decide) (by decide)⟩

/-! Machinery for make_compatible: coordinates, counts, consensus. -/

theorem posOf_pairwise : ∀ l : List Slot, (posOf l).Pairwise (fun a b => a < b) := by
  intro l
  induction l with
  | nil => exact List.Pairwise.nil
  | cons x xs ih =>
    cases x with
    | empty =>
      show ((posOf xs).map (fun t => t + 1)).Pairwise _
      exact (List.pairwise_map).mpr (ih.imp (by omega))
    | point p =>
      show (0 :: (posOf xs).map (fun t => t + 1)).Pairwise _
      refine List.Pairwise.cons ?_ ((List.pairwise_map).mpr (ih.imp (by omega)))
      intro t ht
      obtain ⟨u, _, hu⟩ := List.mem_map.mp ht
      omega

theorem slotNums_eq_posOf : ∀ (l : List Slot) (off : Int), listInv l off →
    slotNums l = (posOf l).map (fun t : Nat => ((t : Int) + off)) := by
  intro l
  induction l with
  | nil => intro off _; rfl
  | cons x xs ih =>
    intro off hinv
    cases x with
    | empty =>
      have htail := ih (off + 1) (listInv_cons_tail hinv)
      show slotNums (Slot.empty :: xs) = ((posOf xs).map (fun t => t + 1)).map _
      have h1 : slotNums (Slot.empty :: xs) = slotNums xs := by
        simp [slotNums, List.filterMap_cons]
      rw [h1, htail, List.map_map]
      apply List.map_congr_left
      intro t _
      simp only [Function.comp]
      push_cast
      ring
    | point p =>
      have htail := ih (off + 1) (listInv_cons_tail hinv)
      have hp : p.num = off := listInv_cons_point hinv
      show slotNums (Slot.point p :: xs) = (0 :: (posOf xs).map (fun t => t + 1)).map _
      have h1 : slotNums (Slot.point p :: xs) = p.num :: slotNums xs := by
        simp [slotNums, List.filterMap_cons]
      rw [h1, htail, List.map_cons, List.map_map]
      congr 1
      · rw [hp]
        show off = ((0 : Nat) : Int) + off
        omega
      · apply List.map_congr_left
        intro t _
        simp only [Function.comp]
        push_cast
        ring

theorem getGenCoords_pairwise (s : Structure) (hinv : slotInvariant s)
    (hres : 0 < s.chrom.res) :
    s.getGenCoords.Pairwise (fun a b => a < b) := by
  unfold Structure.getGenCoords
  rw [getPointNums_eq_slotNums,
    slotNums_eq_posOf s.points s.offset ((slotInvariant_iff_listInv s).mp hinv),
    List.map_map]
  refine (List.pairwise_map).mpr ((posOf_pairwise s.points).imp ?_)
  intro a b hab
  simp only [Function.comp]
  have h2 : (a : Int) + s.offset < (b : Int) + s.offset := by
    have : (a : Int) < (b : Int) := by exact_mod_cast hab
    omega
  exact add_lt_add_left (mul_lt_mul_of_pos_left h2 hres) _

theorem getGenCoords_nodup (s : Structure) (hinv : slotInvariant s)
    (hres : 0 < s.chrom.res) : s.getGenCoords.Nodup :=
  (getGenCoords_pairwise s hinv hres).imp (fun hab => ne_of_lt hab)

theorem sum_eq_length_iff : ∀ ns : List Nat, (∀ x ∈ ns, x ≤ 1) →
    (ns.sum = ns.length ↔ ∀ x ∈ ns, x = 1) := by
  intro ns
  induction ns with
  | nil => intro _; simp
  | cons x xs ih =>
    intro hb
    have hx : x ≤ 1 := hb x (List.mem_cons_self _ _)
    have hxs : ∀ y ∈ xs, y ≤ 1 := fun y hy => hb y (List.mem_cons_of_mem _ hy)
    have hsumle : xs.sum ≤ xs.length := by
      clear ih hb hx
      induction xs with
      | nil => simp
      | cons y ys ih2 =>
        have hy : y ≤ 1 := hxs y (List.mem_cons_self _ _)
        have := ih2 (fun z hz => hxs z (List.mem_cons_of_mem _ hz))
        simp only [List.sum_cons, List.length_cons]
        omega
    rw [List.sum_cons, List.length_cons]
    constructor
    · intro hEq
      have hxeq : x = 1 ∧ xs.sum = xs.length := by omega
      intro y hy
      rcases List.mem_cons.mp hy with h2 | h2
      · omega
      · exact ((ih hxs).mp hxeq.2) y h2
    · intro hall
      have hx1 : x = 1 := hall x (List.mem_cons_self _ _)
      have : xs.sum = xs.length :=
        (ih hxs).mpr (fun y hy => hall y (List.mem_cons_of_mem _ hy))
      omega

theorem count_allGenCoords (ss : List Structure) (c : Int)
    (hnodup : ∀ s ∈ ss, s.getGenCoords.Nodup) :
    ((allGenCoords ss).count c = ss.length ↔ ∀ s ∈ ss, c ∈ s.getGenCoords) := by
  unfold allGenCoords
  rw [List.count_flatten, List.map_map]
  have hbound : ∀ x ∈ ss.map (List.count c ∘ Structure.getGenCoords), x ≤ 1 := by
    intro x hx
    obtain ⟨s, hs, hxs⟩ := List.mem_map.mp hx
    rw [← hxs]
    simp only [Function.comp]
    exact List.nodup_iff_count_le_one.mp (hnodup s hs) c
  have h1 := sum_eq_length_iff _ hbound
  rw [List.length_map] at h1
  rw [h1]
  constructor
  · intro hall s hs
    have h2 := hall _ (List.mem_map_of_mem _ hs)
    simp only [Function.comp] at h2
    have : 0 < List.count c s.getGenCoords := by omega
    exact List.count_pos_iff.mp this
  · intro hall x hx
    obtain ⟨s, hs, hxs⟩ := List.mem_map.mp hx
    have hmem := hall s hs
    have hpos : 0 < List.count c s.getGenCoords :=
      List.count_pos_iff.mpr hmem
    have hle : List.count c s.getGenCoords ≤ 1 :=
      List.nodup_iff_count_le_one.mp (hnodup s hs) c
    rw [← hxs]
    simp only [Function.comp]
    omega

theorem consensusOf_mem (ss : List Structure) (c : Int)
    (hne : ss ≠ [])
    (hnodup : ∀ s ∈ ss, s.getGenCoords.Nodup) :
    (c ∈ consensusOf ss ↔ ∀ s ∈ ss, c ∈ s.getGenCoords) := by
  unfold consensusOf
  rw [List.mem_mergeSort, List.mem_filter, List.mem_dedup]
  constructor
  · intro h
    have h2 : (allGenCoords ss).count c = ss.length := by
      have := h.2
      simpa using this
    exact (count_allGenCoords ss c hnodup).mp h2
  · intro h
    have h2 : (allGenCoords ss).count c = ss.length :=
      (count_allGenCoords ss c hnodup).mpr h
    refine ⟨?_, by simpa using h2⟩
    have hpos : 0 < (allGenCoords ss).count c := by
      rw [h2]
      cases ss with
      | nil => exact absurd rfl hne
      | cons a l => simp
    exact List.count_pos_iff.mp hpos

theorem consensusOf_sorted (ss : List Structure) :
    (consensusOf ss).Pairwise (fun a b : Int => a ≤ b) := by
  have h := List.sorted_mergeSort' ((allGenCoords ss).dedup.filter
      (fun c => (allGenCoords ss).count c = ss.length))
  exact h

theorem consensusOf_nodup (ss : List Structure) : (consensusOf ss).Nodup := by
  refine ((List.mergeSort_perm _ _).symm.nodup) ?_
  exact ((List.nodup_dedup _).filter _)

theorem consensusOf_strict (ss : List Structure) :
    (consensusOf ss).Pairwise (fun a b : Int => a < b) := by
  have h1 := consensusOf_sorted ss
  have h2 := consensusOf_nodup ss
  have := List.Pairwise.and h1 h2
  exact this.imp (fun hab => lt_of_le_of_ne hab.1 hab.2)

theorem fdiv_mul_self_le {a b : Int} (hb : 0 < b) : b * (a.fdiv b) ≤ a := by
  rw [Int.fdiv_eq_ediv _ (le_of_lt hb)]
  have h1 := Int.ediv_add_emod a b
  have h2 := Int.emod_nonneg a (ne_of_gt hb)
  omega

theorem getPointNum_own_coord (s : Structure) (p : Point)
    (hmem : p ∈ s.getPoints)
    (hoff : s.offset = 0)
    (hinv : slotInvariant s)
    (hres : 0 < s.chrom.res)
    (hlen : (s.points.length : Int) ≤ s.chrom.getLength) :
    s.chrom.getPointNum (s.chrom.minPos + s.chrom.res * p.num) = some p.num ∧
      pyGet s.points p.num = some (Slot.point p) := by
  obtain ⟨t, hlt, hslot⟩ := getPoints_exists_slot hmem
  have hnum : p.num = (t : Int) := by
    have h1 := hinv t hlt
    rw [hslot] at h1
    have h2 : p.num = (t : Int) + s.offset := h1
    omega
  have hbound : s.chrom.res * p.num ≤ s.chrom.maxPos - s.chrom.minPos := by
    have h1 : p.num ≤ (s.chrom.maxPos - s.chrom.minPos).fdiv s.chrom.res := by
      unfold ChromParameters.getLength at hlen
      have : (t : Int) < (s.points.length : Int) := by exact_mod_cast hlt
      omega
    have h2 := fdiv_mul_self_le (a := s.chrom.maxPos - s.chrom.minPos) hres
    nlinarith
  have hnn : 0 ≤ s.chrom.res * p.num := by
    have : (0 : Int) ≤ p.num := by omega
    positivity
  constructor
  · unfold ChromParameters.getPointNum
    rw [if_neg (by omega)]
    congr 1
    have h3 : s.chrom.minPos + s.chrom.res * p.num - s.chrom.minPos =
        s.chrom.res * p.num := by ring
    rw [h3, Int.mul_fdiv_cancel_left _ (ne_of_gt hres)]
  · unfold pyGet pyResolve
    rw [hnum]
    have hlt2 : (t : Int) < (s.points.length : Int) := by exact_mod_cast hlt
    rw [if_pos ⟨by omega, hlt2⟩]
    simp only [Int.toNat_natCast, Option.some_bind]
    rw [List.get?_eq_get hlt, hslot]

theorem mem_getGenCoords_iff (s : Structure) (c : Int) :
    c ∈ s.getGenCoords ↔
      ∃ p ∈ s.getPoints, c = s.chrom.minPos + s.chrom.res * p.num := by
  unfold Structure.getGenCoords Structure.getPointNums
  rw [List.map_map, List.mem_map]
  constructor
  · rintro ⟨p, hp, hc⟩
    exact ⟨p, hp, hc.symm⟩
  · rintro ⟨p, hp, hc⟩
    exact ⟨p, hp, hc.symm⟩

/-! Scatter writes into a slot array: the rebuild loop of make_compatible. -/

theorem posOf_mem_iff : ∀ (l : List Slot) (t : Nat),
    (t ∈ posOf l ↔ ∃ h : t < l.length, ∃ p, l.get ⟨t, h⟩ = Slot.point p) := by
  intro l
  induction l with
  | nil => intro t; simp [posOf]
  | cons x xs ih =>
    intro t
    cases x with
    | empty =>
      show t ∈ (posOf xs).map (fun u => u + 1) ↔ _
      rw [List.mem_map]
      constructor
      · rintro ⟨u, hu, hut⟩
        obtain ⟨hlt, p, hp⟩ := (ih u).mp hu
        subst hut
        refine ⟨by simpa using Nat.succ_lt_succ hlt, p, ?_⟩
        simpa using hp
      · rintro ⟨hlt, p, hp⟩
        cases t with
        | zero => exact absurd hp (by simp)
        | succ u =>
          have hlt2 : u < xs.length := by simpa using Nat.lt_of_succ_lt_succ hlt
          refine ⟨u, (ih u).mpr ⟨hlt2, p, ?_⟩, rfl⟩
          simpa using hp
    | point q =>
      show t ∈ 0 :: (posOf xs).map (fun u => u + 1) ↔ _
      rw [List.mem_cons, List.mem_map]
      constructor
      · rintro (rfl | ⟨u, hu, hut⟩)
        · exact ⟨by simp, q, by simp⟩
        · obtain ⟨hlt, p, hp⟩ := (ih u).mp hu
          subst hut
          refine ⟨by simpa using Nat.succ_lt_succ hlt, p, ?_⟩
          simpa using hp
      · rintro ⟨hlt, p, hp⟩
        cases t with
        | zero => exact Or.inl rfl
        | succ u =>
          have hlt2 : u < xs.length := by simpa using Nat.lt_of_succ_lt_succ hlt
          refine Or.inr ⟨u, (ih u).mpr ⟨hlt2, p, ?_⟩, rfl⟩
          simpa using hp

theorem posOf_replicate (n : Nat) : posOf (List.replicate n Slot.empty) = [] := by
  induction n with
  | zero => rfl
  | succ m ih =>
    rw [List.replicate_succ]
    show (posOf (List.replicate m Slot.empty)).map (fun u => u + 1) = []
    rw [ih]
    rfl

theorem slotPoints_set_append : ∀ (l : List Slot) (t : Nat) (p : Point),
    (∀ u ∈ posOf l, u < t) → t < l.length →
    slotPoints (l.set t (Slot.point p)) = slotPoints l ++ [p] := by
  intro l
  induction l with
  | nil => intro t p _ h; simp at h
  | cons x xs ih =>
    intro t p hbelow hlt
    cases t with
    | zero =>
      have hx : x = Slot.empty := by
        cases x with
        | empty => rfl
        | point q =>
          have : (0 : Nat) ∈ posOf (Slot.point q :: xs) := by
            show 0 ∈ 0 :: (posOf xs).map (fun u => u + 1)
            exact List.mem_cons_self _ _
          exact absurd (hbelow 0 this) (by omega)
      subst hx
      have hxs : posOf xs = [] := by
        by_contra hne
        obtain ⟨u, hu⟩ := List.exists_mem_of_ne_nil _ hne
        have : u + 1 ∈ posOf (Slot.empty :: xs) := by
          show u + 1 ∈ (posOf xs).map (fun v => v + 1)
          exact List.mem_map.mpr ⟨u, hu, rfl⟩
        exact absurd (hbelow _ this) (by omega)
      have hempty : slotPoints xs = [] := by
        rcases hsp : slotPoints xs with _ | ⟨q, rest⟩
        · rfl
        · exfalso
          have hq : q ∈ slotPoints xs := by rw [hsp]; exact List.mem_cons_self _ _
          unfold slotPoints at hq
          obtain ⟨sl, hsl, hf⟩ := List.mem_filterMap.mp hq
          cases sl with
          | empty => exact absurd hf (by simp)
          | point q2 =>
            obtain ⟨⟨i, hi⟩, hget⟩ := List.get_of_mem hsl
            have : i ∈ posOf xs := (posOf_mem_iff xs i).mpr ⟨hi, q2, hget⟩
            rw [hxs] at this
            simp at this
      show slotPoints (Slot.point p :: xs) = slotPoints (Slot.empty :: xs) ++ [p]
      have h1 : slotPoints (Slot.point p :: xs) = p :: slotPoints xs := by
        simp [slotPoints, List.filterMap_cons]
      have h2 : slotPoints (Slot.empty :: xs) = slotPoints xs := by
        simp [slotPoints, List.filterMap_cons]
      rw [h1, h2, hempty]
      rfl
    | succ t0 =>
      have hlt2 : t0 < xs.length := by simpa using Nat.lt_of_succ_lt_succ hlt
      have hbelow2 : ∀ u ∈ posOf xs, u < t0 := by
        intro u hu
        have : u + 1 ∈ posOf (x :: xs) := by
          cases x with
          | empty =>
            show u + 1 ∈ (posOf xs).map (fun v => v + 1)
            exact List.mem_map.mpr ⟨u, hu, rfl⟩
          | point q =>
            show u + 1 ∈ 0 :: (posOf xs).map (fun v => v + 1)
            exact List.mem_cons_of_mem _ (List.mem_map.mpr ⟨u, hu, rfl⟩)
        have := hbelow _ this
        omega
      have hset : (x :: xs).set (t0 + 1) (Slot.point p) = x :: xs.set t0 (Slot.point p) :=
        List.set_cons_succ x xs t0 _
      rw [hset]
      cases x with
      | empty =>
        have h1 : slotPoints (Slot.empty :: xs.set t0 (Slot.point p)) =
            slotPoints (xs.set t0 (Slot.point p)) := by
          simp [slotPoints, List.filterMap_cons]
        have h2 : slotPoints (Slot.empty :: xs) = slotPoints xs := by
          simp [slotPoints, List.filterMap_cons]
        rw [h1, h2, ih t0 p hbelow2 hlt2]
      | point q =>
        have h1 : slotPoints (Slot.point q :: xs.set t0 (Slot.point p)) =
            q :: slotPoints (xs.set t0 (Slot.point p)) := by
          simp [slotPoints, List.filterMap_cons]
        have h2 : slotPoints (Slot.point q :: xs) = q :: slotPoints xs := by
          simp [slotPoints, List.filterMap_cons]
        rw [h1, h2, ih t0 p hbelow2 hlt2]
        rfl

theorem posOf_set_subset (l : List Slot) (t : Nat) (p : Point) (u : Nat)
    (hu : u ∈ posOf (l.set t (Slot.point p))) : u = t ∨ u ∈ posOf l := by
  obtain ⟨hlt, q, hq⟩ := (posOf_mem_iff _ u).mp hu
  have hlen : u < l.length := by simpa using hlt
  by_cases hut : u = t
  · exact Or.inl hut
  · refine Or.inr ((posOf_mem_iff l u).mpr ⟨hlen, q, ?_⟩)
    rw [List.get_eq_getElem] at hq ⊢
    rw [List.getElem_set] at hq
    rw [if_neg (fun h => hut h.symm)] at hq
    exact hq

theorem writes_length : ∀ (ws : List (Nat × Point)) (l0 : List Slot),
    (ws.foldl (fun l w => l.set w.1 (Slot.point w.2)) l0).length = l0.length := by
  intro ws
  induction ws with
  | nil => intro l0; rfl
  | cons w ws ih =>
    intro l0
    rw [List.foldl_cons, ih, List.length_set]

theorem writes_slotPoints : ∀ (ws : List (Nat × Point)) (l0 : List Slot),
    ws.Pairwise (fun a b => a.1 < b.1) →
    (∀ w ∈ ws, w.1 < l0.length) →
    (∀ w ∈ ws, ∀ u ∈ posOf l0, u < w.1) →
    slotPoints (ws.foldl (fun l w => l.set w.1 (Slot.point w.2)) l0) =
      slotPoints l0 ++ ws.map (fun w => w.2) := by
  intro ws
  induction ws with
  | nil => intro l0 _ _ _; simp
  | cons w ws ih =>
    intro l0 hpw htarg hbelow
    have hwl : w.1 < l0.length := htarg w (List.mem_cons_self _ _)
    have hwb : ∀ u ∈ posOf l0, u < w.1 := hbelow w (List.mem_cons_self _ _)
    rw [List.foldl_cons]
    have h1 := ih (l0.set w.1 (Slot.point w.2)) hpw.of_cons
      (by
        intro w2 hw2
        rw [List.length_set]
        exact htarg w2 (List.mem_cons_of_mem _ hw2))
      (by
        intro w2 hw2 u hu
        rcases posOf_set_subset l0 w.1 w.2 u hu with rfl | hu2
        · exact List.rel_of_pairwise_cons hpw hw2
        · exact lt_trans (hwb u hu2) (List.rel_of_pairwise_cons hpw hw2))
    rw [h1, slotPoints_set_append l0 w.1 w.2 hwb hwl, List.map_cons]
    simp

theorem rebuild_foldlM_char (s : Structure) (nc : ChromParameters) (L : Nat) :
    ∀ (pairs : List (Nat × Int)) (pts : List Slot),
      pts.length = L →
      (∀ pr ∈ pairs,
        (∃ p : Point, s.chrom.getPointNum pr.2 = some p.num ∧
          pyGet s.points p.num = some (Slot.point p)) ∧
        (∃ newPn : Int, nc.getPointNum pr.2 = some newPn ∧ 0 ≤ newPn ∧
          newPn < (L : Int))) →
      pairs.foldlM (fun (pts : List Slot) (pr : Nat × Int) =>
          match s.chrom.getPointNum pr.2 with
          | none => none
          | some oldPn =>
            match pyGet s.points oldPn with
            | some (Slot.point p) =>
              match nc.getPointNum pr.2 with
              | none => none
              | some newPn =>
                pySet pts newPn (Slot.point
                  { pos := p.pos, num := newPn, chrom := nc, index := (pr.1 : Int) })
            | _ => none) pts =
        some (pairs.foldl (fun (l : List Slot) (pr : Nat × Int) =>
          l.set (rebuildWrite s nc pr).1 (Slot.point (rebuildWrite s nc pr).2)) pts) := by
  intro pairs
  induction pairs with
  | nil => intro pts _ _; rfl
  | cons pr pairs ih =>
    intro pts hlen hall
    obtain ⟨⟨p, hold, hgetp⟩, newPn, hnew, hnn, hltL⟩ :=
      hall pr (List.mem_cons_self _ _)
    rw [List.foldlM_cons, List.foldl_cons]
    have hstep : (match s.chrom.getPointNum pr.2 with
        | none => none
        | some oldPn =>
          match pyGet s.points oldPn with
          | some (Slot.point p) =>
            match nc.getPointNum pr.2 with
            | none => none
            | some newPn =>
              pySet pts newPn (Slot.point
                { pos := p.pos, num := newPn, chrom := nc, index := (pr.1 : Int) })
          | _ => none) =
        some (pts.set (rebuildWrite s nc pr).1 (Slot.point (rebuildWrite s nc pr).2)) := by
      rw [hold]
      dsimp only
      rw [hgetp]
      dsimp only
      rw [hnew]
      dsimp only
      unfold pySet pyResolve
      rw [if_pos ⟨hnn, by omega⟩]
      rw [Option.map_some']
      congr 1
      have hw : rebuildWrite s nc pr =
          (newPn.toNat,
            { pos := p.pos
              num := newPn
              chrom := nc
              index := (pr.1 : Int) }) := by
        unfold rebuildWrite
        rw [hnew]
        dsimp only [Option.getD_some]
        have hpos : oldPosAt s pr.2 = p.pos := by
          unfold oldPosAt
          rw [hold]
          dsimp only [Option.getD_some]
          rw [hgetp]
        rw [hpos]
      rw [hw]
    rw [hstep]
    exact ih _ (by rw [List.length_set]; exact hlen)
      (fun pr2 hpr2 => hall pr2 (List.mem_cons_of_mem _ hpr2))

theorem pairwise_headD_le (l : List Int) (hp : l.Pairwise (fun a b => a ≤ b)) :
    ∀ c ∈ l, l.headD 0 ≤ c := by
  cases l with
  | nil => simp
  | cons x xs =>
    intro c hc
    rcases List.mem_cons.mp hc with rfl | hc2
    · exact le_refl _
    · exact List.rel_of_pairwise_cons hp hc2

theorem getLastD_ne_default : ∀ (ys : List Int) (y : Int) (d1 d2 : Int),
    (y :: ys).getLastD d1 = (y :: ys).getLastD d2 := by
  intro ys y d1 d2
  rw [List.getLastD_eq_getLast?, List.getLastD_eq_getLast?]
  have h : (y :: ys).getLast?.isSome := by
    rw [List.getLast?_isSome]
    simp
  obtain ⟨v, hv⟩ := Option.isSome_iff_exists.mp h
  rw [hv]
  rfl

theorem getLastD_mem : ∀ (l : List Int), l ≠ [] → l.getLastD 0 ∈ l := by
  intro l hl
  rw [List.getLastD_eq_getLast?]
  have h : l.getLast?.isSome := by
    rw [List.getLast?_isSome]
    exact hl
  obtain ⟨v, hv⟩ := Option.isSome_iff_exists.mp h
  rw [hv]
  exact List.mem_of_mem_getLast? (by rw [hv]; exact rfl)

theorem pairwise_le_getLastD : ∀ (l : List Int), l.Pairwise (fun a b => a ≤ b) →
    ∀ c ∈ l, c ≤ l.getLastD 0 := by
  intro l
  induction l with
  | nil => simp
  | cons x xs ih =>
    intro hp c hc
    cases hxs : xs with
    | nil =>
      subst hxs
      rcases List.mem_cons.mp hc with rfl | hc2
      · exact le_refl _
      · simp at hc2
    | cons y ys =>
      subst hxs
      have hlast : (x :: y :: ys).getLastD 0 = (y :: ys).getLastD 0 := by
        rw [List.getLastD_eq_getLast?, List.getLastD_eq_getLast?,
          List.getLast?_cons_cons]
      rw [hlast]
      rcases List.mem_cons.mp hc with rfl | hc2
      · have hmem : (y :: ys).getLastD 0 ∈ y :: ys := getLastD_mem _ (by simp)
        exact le_trans (List.rel_of_pairwise_cons hp hmem) (le_refl _)
      · exact ih hp.of_cons c hc2

theorem headD_mem : ∀ (l : List Int), l ≠ [] → l.headD 0 ∈ l := by
  intro l hl
  cases l with
  | nil => exact absurd rfl hl
  | cons x xs => exact List.mem_cons_self _ _

theorem coords_diff_div (s : Structure) (c c2 : Int)
    (hc : c ∈ s.getGenCoords) (hc2 : c2 ∈ s.getGenCoords) :
    ∃ k : Int, c - c2 = s.chrom.res * k := by
  obtain ⟨p, _, hp⟩ := (mem_getGenCoords_iff s c).mp hc
  obtain ⟨q, _, hq⟩ := (mem_getGenCoords_iff s c2).mp hc2
  exact ⟨p.num - q.num, by rw [hp, hq]; ring⟩

theorem coord_lookup (s : Structure) (c : Int)
    (hc : c ∈ s.getGenCoords)
    (hoff : s.offset = 0)
    (hinv : slotInvariant s)
    (hres : 0 < s.chrom.res)
    (hlen : (s.points.length : Int) ≤ s.chrom.getLength) :
    ∃ p : Point, s.chrom.getPointNum c = some p.num ∧
      pyGet s.points p.num = some (Slot.point p) ∧ oldPosAt s c = p.pos := by
  obtain ⟨p, hp, hcp⟩ := (mem_getGenCoords_iff s c).mp hc
  obtain ⟨h1, h2⟩ := getPointNum_own_coord s p hp hoff hinv hres hlen
  subst hcp
  refine ⟨p, h1, h2, ?_⟩
  unfold oldPosAt
  rw [h1]
  dsimp only [Option.getD_some]
  rw [h2]

theorem slotPoints_replicate (n : Nat) :
    slotPoints (List.replicate n Slot.empty) = [] := by
  induction n with
  | zero => rfl
  | succ m ih =>
    rw [List.replicate_succ]
    show slotPoints (List.replicate m Slot.empty) = []
    exact ih

theorem enumFrom_pairwise {α : Type} (R : α → α → Prop) :
    ∀ (l : List α) (k : Nat), l.Pairwise R →
      (l.enumFrom k).Pairwise (fun a b => R a.2 b.2) := by
  intro l
  induction l with
  | nil => intro k _; exact List.Pairwise.nil
  | cons x xs ih =>
    intro k hp
    rw [List.enumFrom_cons]
    refine List.Pairwise.cons ?_ (ih (k + 1) hp.of_cons)
    intro b hb
    exact List.rel_of_pairwise_cons hp (enumFrom_snd_mem xs (k + 1) b hb)

theorem ncOf_getPointNum (s : Structure) (cs : List Int)
    (hr : 0 < s.chrom.res) (c : Int)
    (h0 : cs.headD 0 ≤ c) (hL : c ≤ cs.getLastD 0) :
    (ncOf s cs).getPointNum c = some ((c - cs.headD 0).fdiv s.chrom.res) := by
  unfold ncOf ChromParameters.getPointNum
  dsimp only
  rw [if_neg (by omega)]

theorem ncOf_getLength (s : Structure) (cs : List Int)
    (hr : 0 < s.chrom.res) (kL : Int)
    (hkL : cs.getLastD 0 - cs.headD 0 = s.chrom.res * kL) :
    (ncOf s cs).getLength = kL + 2 := by
  unfold ncOf ChromParameters.getLength
  dsimp only
  have h1 : cs.getLastD 0 + s.chrom.res - cs.headD 0 =
      s.chrom.res * (kL + 1) := by
    rw [mul_add]
    omega
  rw [h1, Int.mul_fdiv_cancel_left _ (ne_of_gt hr)]
  ring

theorem rebuildOne_spec (s : Structure) (cs : List Int)
    (hcs : cs ≠ [])
    (hpw : cs.Pairwise (fun a b => a < b))
    (hmem : ∀ c ∈ cs, c ∈ s.getGenCoords)
    (hoff : s.offset = 0)
    (hinv : slotInvariant s)
    (hr : 0 < s.chrom.res)
    (hlen : (s.points.length : Int) ≤ s.chrom.getLength) :
    ∃ kL : Int, 0 ≤ kL ∧ cs.getLastD 0 - cs.headD 0 = s.chrom.res * kL ∧
    ∃ pts : List Slot,
      rebuildOne cs (cs.headD 0) (cs.getLastD 0) s =
        some { points := pts, chrom := ncOf s cs, offset := s.offset } ∧
      pts.length = (kL + 2).toNat ∧
      slotPoints pts =
        (cs.enum.map (rebuildWrite s (ncOf s cs))).map (fun w => w.2) := by
  have hc0mem : cs.headD 0 ∈ cs := headD_mem cs hcs
  have hcLmem : cs.getLastD 0 ∈ cs := getLastD_mem cs hcs
  have hple : cs.Pairwise (fun a b : Int => a ≤ b) := hpw.imp le_of_lt
  have hc0le : ∀ c ∈ cs, cs.headD 0 ≤ c := pairwise_headD_le cs hple
  have hleL : ∀ c ∈ cs, c ≤ cs.getLastD 0 := pairwise_le_getLastD cs hple
  have hdvd : ∀ c ∈ cs, ∃ k : Int, c - cs.headD 0 = s.chrom.res * k ∧ 0 ≤ k := by
    intro c hc
    obtain ⟨k, hk⟩ := coords_diff_div s c (cs.headD 0) (hmem c hc) (hmem _ hc0mem)
    refine ⟨k, hk, ?_⟩
    nlinarith [hc0le c hc]
  obtain ⟨kL, hkL, hkL0⟩ := hdvd _ hcLmem
  have hnlen : (ncOf s cs).getLength = kL + 2 := ncOf_getLength s cs hr kL hkL
  have htv : ∀ c ∈ cs, ∃ k : Int, (ncOf s cs).getPointNum c = some k ∧
      c - cs.headD 0 = s.chrom.res * k ∧ 0 ≤ k ∧ k ≤ kL := by
    intro c hc
    obtain ⟨k, hk, hk0⟩ := hdvd c hc
    refine ⟨k, ?_, hk, hk0, ?_⟩
    · rw [ncOf_getPointNum s cs hr c (hc0le c hc) (hleL c hc), hk,
        Int.mul_fdiv_cancel_left _ (ne_of_gt hr)]
    · have h1 : c ≤ cs.getLastD 0 := hleL c hc
      nlinarith
  refine ⟨kL, hkL0, hkL, ?_⟩
  have hnc : ncOf s cs =
      { minPos := cs.headD 0
        maxPos := cs.getLastD 0 + s.chrom.res
        res := s.chrom.res
        name := s.chrom.name
        size := s.chrom.size } := rfl
  have hfold := rebuild_foldlM_char s (ncOf s cs) ((kL + 2).toNat) cs.enum
    (List.replicate ((ncOf s cs).getLength).toNat Slot.empty)
    (by rw [List.length_replicate, hnlen])
    (by
      intro pr hpr
      have hprc : pr.2 ∈ cs := enumFrom_snd_mem cs 0 pr hpr
      constructor
      · obtain ⟨p, h1, h2, _⟩ := coord_lookup s pr.2 (hmem _ hprc) hoff hinv hr hlen
        exact ⟨p, h1, h2⟩
      · obtain ⟨k, hk1, hk2, hk3, hk4⟩ := htv pr.2 hprc
        exact ⟨k, hk1, hk3, by omega⟩)
  refine ⟨cs.enum.foldl (fun l pr => l.set (rebuildWrite s (ncOf s cs) pr).1
      (Slot.point (rebuildWrite s (ncOf s cs) pr).2))
      (List.replicate ((ncOf s cs).getLength).toNat Slot.empty), ?_, ?_, ?_⟩
  · unfold rebuildOne
    rw [← hnc]
    dsimp only
    rw [hnlen]
    rw [if_neg (by omega)]
    rw [show (((ncOf s cs).getLength).toNat = (kL + 2).toNat) from by rw [hnlen]] at hfold
    rw [hfold]
    rw [Option.map_some']
  · rw [← List.foldl_map (rebuildWrite s (ncOf s cs))
      (fun (l : List Slot) (w : Nat × Point) => l.set w.1 (Slot.point w.2)) cs.enum
      (List.replicate ((ncOf s cs).getLength).toNat Slot.empty)]
    rw [writes_length, List.length_replicate, hnlen]
  · rw [← List.foldl_map (rebuildWrite s (ncOf s cs))
      (fun (l : List Slot) (w : Nat × Point) => l.set w.1 (Slot.point w.2)) cs.enum
      (List.replicate ((ncOf s cs).getLength).toNat Slot.empty)]
    rw [writes_slotPoints _ _ ?hpw2 ?htarg ?hbelow]
    · rw [slotPoints_replicate, List.nil_append]
    case hpw2 =>
      refine List.pairwise_map.mpr ?_
      have hpe := enumFrom_pairwise (fun a b : Int => a ∈ cs ∧ b ∈ cs ∧ a < b) cs 0
        (List.Pairwise.and_mem.mp hpw)
      refine hpe.imp ?_
      rintro a b ⟨ha, hb, hab⟩
      obtain ⟨ka, hka1, hka2, hka3, _⟩ := htv a.2 ha
      obtain ⟨kb, hkb1, hkb2, hkb3, _⟩ := htv b.2 hb
      unfold rebuildWrite
      rw [hka1, hkb1]
      dsimp only [Option.getD_some]
      have : ka < kb := by nlinarith
      omega
    case htarg =>
      intro w hw
      obtain ⟨pr, hpr, hw2⟩ := List.mem_map.mp hw
      have hprc : pr.2 ∈ cs := enumFrom_snd_mem cs 0 pr hpr
      obtain ⟨k, hk1, hk2, hk3, hk4⟩ := htv pr.2 hprc
      rw [← hw2]
      unfold rebuildWrite
      rw [hk1]
      dsimp only [Option.getD_some]
      rw [List.length_replicate, hnlen]
      omega
    case hbelow =>
      intro w _ u hu
      rw [posOf_replicate] at hu
      simp at hu

theorem rebuildOne_out (s : Structure) (cs : List Int)
    (hcs : cs ≠ [])
    (hpw : cs.Pairwise (fun a b => a < b))
    (hmem : ∀ c ∈ cs, c ∈ s.getGenCoords)
    (hoff : s.offset = 0)
    (hinv : slotInvariant s)
    (hr : 0 < s.chrom.res)
    (hlen : (s.points.length : Int) ≤ s.chrom.getLength) :
    ∃ out : Structure,
      rebuildOne cs (cs.headD 0) (cs.getLastD 0) s = some out ∧
      out.chrom = ncOf s cs ∧
      out.offset = s.offset ∧
      nonEmptyPositions out = cs.map (oldPosAt s) ∧
      out.getGenCoords = cs ∧
      nonEmptyIndices out = (List.range cs.length).map (fun n : Nat => (n : Int)) := by
  obtain ⟨kL, hkL0, hkL, pts, heq, hplen, hsp⟩ :=
    rebuildOne_spec s cs hcs hpw hmem hoff hinv hr hlen
  have hple : cs.Pairwise (fun a b : Int => a ≤ b) := hpw.imp le_of_lt
  have hc0le : ∀ c ∈ cs, cs.headD 0 ≤ c := pairwise_headD_le cs hple
  have hleL : ∀ c ∈ cs, c ≤ cs.getLastD 0 := pairwise_le_getLastD cs hple
  have hsnd : cs.enum.map Prod.snd = cs := by
    rw [show cs.enum = List.enumFrom 0 cs from rfl]
    exact List.enumFrom_map_snd 0 cs
  have hfst : cs.enum.map Prod.fst = List.range cs.length := by
    rw [show cs.enum = List.enumFrom 0 cs from rfl]
    rw [List.enumFrom_map_fst 0 cs]
    exact (List.range_eq_range' cs.length).symm
  refine ⟨{ points := pts, chrom := ncOf s cs, offset := s.offset }, heq, rfl, rfl,
    ?_, ?_, ?_⟩
  · show (slotPoints pts).map (fun p => p.pos) = cs.map (oldPosAt s)
    rw [hsp, List.map_map, List.map_map]
    conv_rhs => rw [← hsnd]
    rw [List.map_map]
    apply List.map_congr_left
    intro pr _
    rfl
  · show ({ points := pts, chrom := ncOf s cs, offset := s.offset } :
      Structure).getGenCoords = cs
    unfold Structure.getGenCoords
    rw [getPointNums_eq_slotNums]
    show (slotNums pts).map
      (fun n => (ncOf s cs).minPos + (ncOf s cs).res * n) = cs
    rw [slotNums_eq_map, hsp, List.map_map, List.map_map]
    conv_rhs => rw [← hsnd]
    rw [List.map_map]
    apply List.map_congr_left
    intro pr hpr
    have hprc : pr.2 ∈ cs := enumFrom_snd_mem cs 0 pr hpr
    obtain ⟨k, hk⟩ := coords_diff_div s pr.2 (cs.headD 0)
      (hmem _ hprc) (hmem _ (headD_mem cs hcs))
    show (ncOf s cs).minPos + (ncOf s cs).res *
      ((ncOf s cs).getPointNum pr.2).getD 0 = pr.2
    rw [ncOf_getPointNum s cs hr pr.2 (hc0le _ hprc) (hleL _ hprc)]
    dsimp only [Option.getD_some]
    rw [hk, Int.mul_fdiv_cancel_left _ (ne_of_gt hr)]
    show cs.headD 0 + s.chrom.res * k = pr.2
    omega
  · show (slotPoints pts).map (fun p => p.index) =
      (List.range cs.length).map (fun n : Nat => (n : Int))
    rw [hsp, List.map_map, List.map_map]
    conv_rhs => rw [← hfst]
    rw [List.map_map]
    apply List.map_congr_left
    intro pr _
    rfl

theorem map_oldPosAt_self (s : Structure)
    (hoff : s.offset = 0)
    (hinv : slotInvariant s)
    (hr : 0 < s.chrom.res)
    (hlen : (s.points.length : Int) ≤ s.chrom.getLength) :
    s.getGenCoords.map (oldPosAt s) = nonEmptyPositions s := by
  unfold Structure.getGenCoords Structure.getPointNums nonEmptyPositions
  rw [List.map_map, List.map_map]
  apply List.map_congr_left
  intro p hp
  obtain ⟨h1, h2⟩ := getPointNum_own_coord s p hp hoff hinv hr hlen
  show oldPosAt s (s.chrom.minPos + s.chrom.res * p.num) = p.pos
  unfold oldPosAt
  rw [h1]
  dsimp only [Option.getD_some]
  rw [h2]

theorem mapM_char (f : Structure → Option Structure) :
    ∀ ss : List Structure,
      (∀ s ∈ ss, (f s).isSome) →
      ∃ os : List Structure, ss.mapM f = some os ∧ os.length = ss.length ∧
        ∀ i : Nat, ∀ h1 : i < ss.length, ∀ h2 : i < os.length,
          f (ss.get ⟨i, h1⟩) = some (os.get ⟨i, h2⟩) := by
  intro ss
  induction ss with
  | nil =>
    intro _
    exact ⟨[], rfl, rfl, fun i h1 => absurd h1 (by simp)⟩
  | cons s ss ih =>
    intro hall
    obtain ⟨o, ho⟩ := Option.isSome_iff_exists.mp (hall s (List.mem_cons_self _ _))
    obtain ⟨os, hos, hlen, hidx⟩ :=
      ih (fun t ht => hall t (List.mem_cons_of_mem _ ht))
    refine ⟨o :: os, ?_, by simp [hlen], ?_⟩
    · rw [List.mapM_cons, ho, hos]
      rfl
    · intro i h1 h2
      cases i with
      | zero => exact ho
      | succ j =>
        have hj1 : j < ss.length := by simpa using Nat.lt_of_succ_lt_succ h1
        have hj2 : j < os.length := by simpa using Nat.lt_of_succ_lt_succ h2
        have := hidx j hj1 hj2
        rw [List.get_cons_succ, List.get_cons_succ]
        exact this

/-- C8: make_compatible computes the consensus as exactly the coordinates at
which all structures have a point, sorted ascending; for OFFSET-0 structures
(with the slot invariant, a positive shared resolution, and a slot array not
longer than the chromosome length) it rewrites every structure over new
chromosome parameters spanning consensus head to consensus last plus res,
rebuilding each structure over the consensus with fresh dense 0-based
indices, the consensus itself as the coordinate set, and with the position
carried for coordinate c being the pos of the point the source reads at
points[getPointNum(c)] (which under offset 0 is the structure's own point at
c); applied to identical offset-0 structures the consensus is the full
coordinate set of any one of them and all positions are preserved.  (For
nonzero offsets the position carried is NOT that of the consensus point,
because the lookup ignores the offset: see the counterexample.) -/
theorem c8_make_compatible_amended (ss : List Structure) (r : Int)
    (hn : 2 ≤ ss.length)
    (hr : 0 < r)
    (hres : ∀ s ∈ ss, s.chrom.res = r)
    (hoff : ∀ s ∈ ss, s.offset = 0)
    (hinv : ∀ s ∈ ss, slotInvariant s)
    (hlen : ∀ s ∈ ss, (s.points.length : Int) ≤ s.chrom.getLength)
    (hcons : consensusOf ss ≠ []) :
    (∀ c : Int, c ∈ consensusOf ss ↔ ∀ s ∈ ss, c ∈ s.getGenCoords) ∧
    (consensusOf ss).Pairwise (fun a b => a ≤ b) ∧
    (∃ outs : List Structure, make_compatible ss = some outs ∧
      outs.length = ss.length ∧
      (∀ i : Nat, ∀ h1 : i < ss.length, ∀ h2 : i < outs.length,
        (outs.get ⟨i, h2⟩).chrom = ncOf (ss.get ⟨i, h1⟩) (consensusOf ss) ∧
        (outs.get ⟨i, h2⟩).offset = 0 ∧
        nonEmptyPositions (outs.get ⟨i, h2⟩) =
          (consensusOf ss).map (oldPosAt (ss.get ⟨i, h1⟩)) ∧
        (outs.get ⟨i, h2⟩).getGenCoords = consensusOf ss ∧
        nonEmptyIndices (outs.get ⟨i, h2⟩) =
          (List.range (consensusOf ss).length).map (fun n : Nat => (n : Int))) ∧
      (∀ s0 : Structure, (∀ s ∈ ss, s = s0) →
        consensusOf ss = s0.getGenCoords ∧
        ∀ t ∈ outs, nonEmptyPositions t = nonEmptyPositions s0)) := by
  have hne : ss ≠ [] := by
    intro h
    rw [h] at hn
    simp at hn
  have hnodup : ∀ s ∈ ss, s.getGenCoords.Nodup := by
    intro s hs
    exact getGenCoords_nodup s (hinv s hs) (by rw [hres s hs]; exact hr)
  have hmemiff : ∀ c : Int, c ∈ consensusOf ss ↔ ∀ s ∈ ss, c ∈ s.getGenCoords :=
    fun c => consensusOf_mem ss c hne hnodup
  refine ⟨hmemiff, consensusOf_sorted ss, ?_⟩
  have hstrict := consensusOf_strict ss
  have hout : ∀ s ∈ ss, ∃ out : Structure,
      rebuildOne (consensusOf ss) ((consensusOf ss).headD 0)
        ((consensusOf ss).getLastD 0) s = some out ∧
      out.chrom = ncOf s (consensusOf ss) ∧
      out.offset = s.offset ∧
      nonEmptyPositions out = (consensusOf ss).map (oldPosAt s) ∧
      out.getGenCoords = consensusOf ss ∧
      nonEmptyIndices out =
        (List.range (consensusOf ss).length).map (fun n : Nat => (n : Int)) := by
    intro s hs
    exact rebuildOne_out s (consensusOf ss) hcons hstrict
      (fun c hc => (hmemiff c).mp hc s hs) (hoff s hs) (hinv s hs)
      (by rw [hres s hs]; exact hr) (hlen s hs)
  obtain ⟨c0, rest, hcse⟩ : ∃ c0 rest, consensusOf ss = c0 :: rest := by
    cases h2 : consensusOf ss with
    | nil => exact absurd h2 hcons
    | cons a l => exact ⟨a, l, rfl⟩
  have hmc : make_compatible ss =
      ss.mapM (rebuildOne (consensusOf ss) ((consensusOf ss).headD 0)
        ((consensusOf ss).getLastD 0)) := by
    unfold make_compatible
    dsimp only
    rw [hcse]
    dsimp only [List.headD_cons]
    rw [getLastD_ne_default rest c0 c0 0]
  obtain ⟨outs, houts, hlens, hidx⟩ := mapM_char
    (rebuildOne (consensusOf ss) ((consensusOf ss).headD 0)
      ((consensusOf ss).getLastD 0)) ss
    (by
      intro s hs
      obtain ⟨out, ho, _⟩ := hout s hs
      rw [ho]
      rfl)
  refine ⟨outs, by rw [hmc]; exact houts, hlens, ?_, ?_⟩
  · intro i h1 h2
    have hsi : ss.get ⟨i, h1⟩ ∈ ss := List.get_mem ss i h1
    obtain ⟨out, ho, hc, hof, hp, hg, hix⟩ := hout _ hsi
    have hfi := hidx i h1 h2
    rw [ho] at hfi
    have hoeq : out = outs.get ⟨i, h2⟩ := Option.some_inj.mp hfi
    rw [← hoeq]
    exact ⟨hc, by rw [hof]; exact hoff _ hsi, hp, hg, hix⟩
  · intro s0 hs0
    have hs0mem : s0 ∈ ss := by
      cases ss with
      | nil => simp at hn
      | cons a l =>
        have ha := hs0 a (List.mem_cons_self _ _)
        exact ha ▸ List.mem_cons_self a l
    have hcoords_eq : consensusOf ss = s0.getGenCoords := by
      have hperm : List.Perm (consensusOf ss) s0.getGenCoords :=
        (List.perm_ext_iff_of_nodup (consensusOf_nodup ss)
          (hnodup s0 hs0mem)).mpr (fun c => by
            rw [hmemiff c]
            constructor
            · intro h
              exact h s0 hs0mem
            · intro h s hs
              rw [hs0 s hs]
              exact h)
      exact List.eq_of_perm_of_sorted hperm (consensusOf_sorted ss)
        ((getGenCoords_pairwise s0 (hinv _ hs0mem)
          (by rw [hres _ hs0mem]; exact hr)).imp le_of_lt)
    refine ⟨hcoords_eq, ?_⟩
    intro t ht
    obtain ⟨⟨i, h2⟩, hti⟩ := List.get_of_mem ht
    have h1 : i < ss.length := by omega
    have hsi : ss.get ⟨i, h1⟩ ∈ ss := List.get_mem ss i h1
    obtain ⟨out, ho, hc, hof, hp, hg, hix⟩ := hout _ hsi
    have hfi := hidx i h1 h2
    rw [ho] at hfi
    have hoeq : out = outs.get ⟨i, h2⟩ := Option.some_inj.mp hfi
    rw [← hti, ← hoeq, hp, hs0 _ hsi, hcoords_eq]
    exact map_oldPosAt_self s0 (hoff _ hs0mem) (hinv _ hs0mem)
      (by rw [hres _ hs0mem]; exact hr) (hlen _ hs0mem)

theorem consensusOf_eq_of_sorted {ss : List Structure} {l : List Int}
    (h : (allGenCoords ss).dedup.filter
      (fun c => (allGenCoords ss).count c = ss.length) = l)
    (hs : l.Pairwise (fun a b : Int => a ≤ b)) :
    consensusOf ss = l := by
  show ((allGenCoords ss).dedup.filter
    (fun c => (allGenCoords ss).count c = ss.length)).mergeSort
      (fun a b => decide (a ≤ b)) = l
  rw [h]
  exact List.mergeSort_eq_self hs

theorem consensusOf_ne_nil_of_filter {ss : List Structure}
    (h : (allGenCoords ss).dedup.filter
      (fun c => (allGenCoords ss).count c = ss.length) ≠ []) :
    consensusOf ss ≠ [] := by
  intro h2
  apply h
  have h3 : ((allGenCoords ss).dedup.filter
      (fun c => (allGenCoords ss).count c = ss.length)).mergeSort
        (fun a b => decide (a ≤ b)) = [] := h2
  have hp := List.mergeSort_perm ((allGenCoords ss).dedup.filter
    (fun c => (allGenCoords ss).count c = ss.length))
    (fun a b : Int => decide (a ≤ b))
  rw [h3] at hp
  exact (List.perm_nil.mp hp.symm)

/-- C8 counterexample: for structures with a nonzero offset the claim fails.
sA8 (offset 1) and sB8 (offset 0) share resolution 1000 and both satisfy the
slot invariant; their consensus is the single coordinate 1000, where sA8's
point (num 1) has position (1,0,0); yet make_compatible succeeds and carries
position (2,0,0) for sA8 — the position of the point stored at slot 1
(= points[getPointNum 1000], ignoring the offset), which belongs to
coordinate 2000 — so the consensus point's position is not carried over. -/
theorem c8_counterexample :
    2 ≤ ([sA8, sB8] : List Structure).length ∧
    sA8.chrom.res = 1000 ∧ sB8.chrom.res = 1000 ∧
    slotInvariant sA8 ∧ slotInvariant sB8 ∧
    consensusOf [sA8, sB8] = [1000] ∧
    sA8.getPoints.map (fun p => (p.num, p.pos)) =
      [(1, ((1 : ℚ), (0 : ℚ), (0 : ℚ))), (2, ((2 : ℚ), (0 : ℚ), (0 : ℚ)))] ∧
    sA8.getGenCoords = [1000, 2000] ∧
    (make_compatible [sA8, sB8]).map (fun l => l.map nonEmptyPositions) =
      some [[((2 : ℚ), (0 : ℚ), (0 : ℚ))], [((3 : ℚ), (0 : ℚ), (0 : ℚ))]] ∧
    ((2 : ℚ), (0 : ℚ), (0 : ℚ)) ≠ ((1 : ℚ), (0 : ℚ), (0 : ℚ)) := by
  have hcons : consensusOf [sA8, sB8] = [1000] :=
    consensusOf_eq_of_sorted (by decide) (by decide)
  refine ⟨by decide, by decide, by decide, by decide, by decide, hcons,
    by decide, by decide, ?_, by decide⟩
  have hmc : make_compatible [sA8, sB8] =
      ([sA8, sB8] : List Structure).mapM
        (rebuildOne [1000] 1000 ([1000].getLastD 1000)) := by
    unfold make_compatible
    dsimp only
    rw [hcons]
  rw [hmc]
  decide

theorem c8_witness :
    (∀ c : Int, c ∈ consensusOf [sW8, sW8] ↔
      ∀ s ∈ ([sW8, sW8] : List Structure), c ∈ s.getGenCoords) ∧
    (consensusOf [sW8, sW8]).Pairwise (fun a b => a ≤ b) ∧
    (∃ outs : List Structure, make_compatible [sW8, sW8] = some outs ∧
      outs.length = ([sW8, sW8] : List Structure).length ∧
      (∀ i : Nat, ∀ h1 : i < ([sW8, sW8] : List Structure).length,
        ∀ h2 : i < outs.length,
        (outs.get ⟨i, h2⟩).chrom =
          ncOf (([sW8, sW8] : List Structure).get ⟨i, h1⟩)
            (consensusOf [sW8, sW8]) ∧
        (outs.get ⟨i, h2⟩).offset = 0 ∧
        nonEmptyPositions (outs.get ⟨i, h2⟩) =
          (consensusOf [sW8, sW8]).map
            (oldPosAt (([sW8, sW8] : List Structure).get ⟨i, h1⟩)) ∧
        (outs.get ⟨i, h2⟩).getGenCoords = consensusOf [sW8, sW8] ∧
        nonEmptyIndices (outs.get ⟨i, h2⟩) =
          (List.range (consensusOf [sW8, sW8]).length).map
            (fun n : Nat => (n : Int))) ∧
      (∀ s0 : Structure, (∀ s ∈ ([sW8, sW8] : List Structure), s = s0) →
        consensusOf [sW8, sW8] = s0.getGenCoords ∧
        ∀ t ∈ outs, nonEmptyPositions t = nonEmptyPositions s0)) :=
  c8_make_compatible_amended [sW8, sW8] 1000 (by decide) (by decide) (by decide)
    (by decide) (by decide) (by decide) (consensusOf_ne_nil_of_filter (by decide))
